import Mathlib

/-!
Verification of the swagger-to-mcp specification-to-tool compiler.

The development shallowly embeds the JavaScript sources
(`src/lib/security.js`, `src/lib/schema.js`, `src/lib/swagger-to-mcp.js`)
into Lean.  JavaScript values manipulated by the compiler are modelled by
the `Json` inductive below (JS `undefined` and `null` are distinguished,
numbers are restricted to integers, and object fields are association
lists in insertion order, mirroring JS object key ordering).  External
collaborators (the WHATWG URL parser, `path.resolve`, the file system,
the `ajv` validator compiler) are passed in as explicit oracles.
-/

set_option autoImplicit false

namespace SwaggerToMcp

/-- JavaScript values as manipulated by the compiler.  Object fields are
kept in insertion order; actual JS objects never hold duplicate keys,
which is captured by the `Json.WFb` predicate below where it matters. -/
inductive Json where
  | undef : Json
  | null : Json
  | bool : Bool → Json
  | num : Int → Json
  | str : String → Json
  | arr : List Json → Json
  | obj : List (String × Json) → Json
deriving Repr, Inhabited

/-- Fuel-indexed structural equality test on `Json`.  Fuel at least
`sizeOf` the first argument suffices; the fuel only makes the recursion
structural (over `Nat`), so that equality tests evaluate inside the
kernel. -/
def Json.beqN : Nat → Json → Json → Bool
  | 0, _, _ => false
  | n + 1, a, b =>
    match a, b with
    | .undef, .undef => true
    | .null, .null => true
    | .bool x, .bool y => x == y
    | .num x, .num y => x == y
    | .str x, .str y => x == y
    | .arr xs, .arr ys =>
      xs.length == ys.length &&
      (xs.zip ys).all (fun p => Json.beqN n p.1 p.2)
    | .obj fs, .obj gs =>
      fs.length == gs.length &&
      (fs.zip gs).all (fun p => p.1.1 == p.2.1 && Json.beqN n p.1.2 p.2.2)
    | _, _ => false

theorem Json.sizeOf_pos (a : Json) : 1 ≤ sizeOf a := by
  cases a <;> simp

theorem mem_zip_self {α : Type} : ∀ (l : List α) (p : α × α), p ∈ l.zip l → p.1 = p.2 := by
  intro l
  induction l with
  | nil => intro p hp; simp at hp
  | cons a rest ih =>
    intro p hp
    rw [List.zip_cons_cons, List.mem_cons] at hp
    rcases hp with hp | hp
    · simp [hp]
    · exact ih p hp

theorem listZipEq {α : Type} (f : α → α → Bool) :
    ∀ xs ys : List α, (∀ x ∈ xs, ∀ y, (f x y = true ↔ x = y)) →
    ((xs.length = ys.length ∧ ∀ p ∈ xs.zip ys, f p.1 p.2 = true) ↔ xs = ys) := by
  intro xs
  induction xs with
  | nil =>
    intro ys _
    cases ys <;> simp
  | cons x rest ih =>
    intro ys helts
    cases ys with
    | nil => simp
    | cons y ys =>
      have h1 := helts x (List.mem_cons_self _ _) y
      have h2 : ∀ a ∈ rest, ∀ b, (f a b = true ↔ a = b) :=
        fun a ha b => helts a (List.mem_cons_of_mem _ ha) b
      have h3 := ih ys h2
      constructor
      · rintro ⟨hlen, hall⟩
        have hx : x = y := h1.mp (hall (x, y) (by rw [List.zip_cons_cons]; exact List.mem_cons_self _ _))
        have hxs : rest = ys := h3.mp
          ⟨by simpa using hlen,
           fun p hp => hall p (by rw [List.zip_cons_cons]; exact List.mem_cons_of_mem _ hp)⟩
        rw [hx, hxs]
      · intro h
        injection h with hx hxs
        subst hx
        subst hxs
        refine ⟨rfl, ?_⟩
        intro p hp
        rw [List.zip_cons_cons, List.mem_cons] at hp
        rcases hp with hp | hp
        · rw [hp]
          exact h1.mpr rfl
        · have := mem_zip_self rest p hp
          exact (h2 p.1 (List.of_mem_zip hp).1 p.2).mpr this

theorem Json.beqN_correct : ∀ (n : Nat) (a b : Json), sizeOf a ≤ n →
    (Json.beqN n a b = true ↔ a = b) := by
  intro n
  induction n using Nat.strong_induction_on with
  | _ n IHn =>
    intro a b hsz
    match n with
    | 0 =>
      exact absurd (le_trans (Json.sizeOf_pos a) hsz) (by omega)
    | n + 1 =>
      cases a with
      | undef => cases b <;> simp [Json.beqN]
      | null => cases b <;> simp [Json.beqN]
      | bool x => cases b <;> simp [Json.beqN]
      | num x => cases b <;> simp [Json.beqN]
      | str x => cases b <;> simp [Json.beqN]
      | arr xs =>
        have helts : ∀ x ∈ xs, ∀ y : Json, (Json.beqN n x y = true ↔ x = y) := by
          intro x hx y
          have hx1 : sizeOf x < sizeOf xs := List.sizeOf_lt_of_mem hx
          have hx2 : sizeOf (Json.arr xs) = 1 + sizeOf xs := by simp
          rw [hx2] at hsz
          exact IHn n (by omega) x y (by omega)
        have h := fun ys => listZipEq (fun x y => Json.beqN n x y) xs ys helts
        cases b with
        | arr ys =>
          simp only [Json.beqN, Bool.and_eq_true, List.all_eq_true, beq_iff_eq,
            Json.arr.injEq]
          exact Iff.trans (by constructor <;> exact fun hh => ⟨hh.1, hh.2⟩) (h ys)
        | undef => simp [Json.beqN]
        | null => simp [Json.beqN]
        | bool y => simp [Json.beqN]
        | num y => simp [Json.beqN]
        | str y => simp [Json.beqN]
        | obj gs => simp [Json.beqN]
      | obj fs =>
        have helts : ∀ kv ∈ fs, ∀ kw : String × Json,
            ((kv.1 == kw.1 && Json.beqN n kv.2 kw.2) = true ↔ kv = kw) := by
          intro kv hkv kw
          have hx1 : sizeOf kv < sizeOf fs := List.sizeOf_lt_of_mem hkv
          have hx2 : sizeOf kv.2 < sizeOf kv := by
            obtain ⟨a2, b2⟩ := kv
            simp
          have hx3 : sizeOf (Json.obj fs) = 1 + sizeOf fs := by simp
          rw [hx3] at hsz
          have hiff := IHn n (by omega) kv.2 kw.2 (by omega)
          rw [Bool.and_eq_true, beq_iff_eq, hiff]
          constructor
          · rintro ⟨h1, h2⟩
            exact Prod.ext h1 h2
          · intro h
            rw [h]
            exact ⟨rfl, rfl⟩
        have h := fun gs =>
          listZipEq (fun kv kw => kv.1 == kw.1 && Json.beqN n kv.2 kw.2) fs gs helts
        cases b with
        | obj gs =>
          simp only [Json.beqN, Bool.and_eq_true, List.all_eq_true, beq_iff_eq,
            Json.obj.injEq]
          constructor
          · rintro ⟨h1, h2⟩
            refine (h gs).mp ⟨h1, fun p hp => ?_⟩
            rw [Bool.and_eq_true, beq_iff_eq]
            exact h2 p hp
          · intro heq
            have h3 := (h gs).mpr heq
            refine ⟨h3.1, fun p hp => ?_⟩
            have h4 := h3.2 p hp
            rw [Bool.and_eq_true, beq_iff_eq] at h4
            exact h4
        | undef => simp [Json.beqN]
        | null => simp [Json.beqN]
        | bool y => simp [Json.beqN]
        | num y => simp [Json.beqN]
        | str y => simp [Json.beqN]
        | arr ys => simp [Json.beqN]

/-- Structural equality on `Json` is decidable.  (The instance fuels
`beqN` by `sizeOf`, whose auto-derived instance the compiler cannot
execute, so the instance is noncomputable at the compiler level — the
kernel reduces it fine; it is used only in theorem statements and
proofs, never inside the program model.) -/
noncomputable instance : DecidableEq Json :=
  fun a b => decidable_of_iff _ (Json.beqN_correct (sizeOf a) a b (le_refl _))

instance {ε α : Type} [DecidableEq ε] [DecidableEq α] : DecidableEq (Except ε α) :=
  fun a b =>
    match a, b with
    | .error e1, .error e2 =>
      if h : e1 = e2 then isTrue (by rw [h]) else isFalse (by intro hh; cases hh; exact h rfl)
    | .ok v1, .ok v2 =>
      if h : v1 = v2 then isTrue (by rw [h]) else isFalse (by intro hh; cases hh; exact h rfl)
    | .error _, .ok _ => isFalse (by intro hh; cases hh)
    | .ok _, .error _ => isFalse (by intro hh; cases hh)

/-! ### Kernel-reducible string primitives

The embedding implements the string operations it needs directly on the
character list of a `String`, so that every definition evaluates by
`decide`/`rfl` (the byte-position-based implementations in core do not
reduce well inside the kernel). -/

/-- `s.startsWith p`. -/
def strStartsWith (s p : String) : Bool := p.data.isPrefixOf s.data

/-- `s.endsWith p`. -/
def strEndsWith (s p : String) : Bool := p.data.isSuffixOf s.data

/-- `s.slice(n)` / `String.drop`. -/
def strDrop (s : String) (n : Nat) : String := ⟨s.data.drop n⟩

/-- Drop the last `n` characters (`slice(0, -n)`). -/
def strDropRight (s : String) (n : Nat) : String := ⟨s.data.take (s.data.length - n)⟩

/-- Character-wise map. -/
def strMap (f : Char → Char) (s : String) : String := ⟨s.data.map f⟩

/-- Split a character list on a separator character, keeping empty
segments (so `split '/' "a/" = ["a", ""]`, matching JS `split`). -/
def splitOnCharAux (c : Char) : List Char → List (List Char)
  | [] => [[]]
  | x :: rest =>
    let r := splitOnCharAux c rest
    if x = c then [] :: r
    else
      match r with
      | [] => [[x]]
      | h :: t => (x :: h) :: t

/-- `s.split(c)` for a one-character separator. -/
def strSplitOnChar (c : Char) (s : String) : List String :=
  (splitOnCharAux c s.data).map (fun l => ⟨l⟩)

/-- UTF-8 bytes of one character (as `Nat`s). -/
def utf8Bytes (c : Char) : List Nat :=
  let n := c.toNat
  if n < 0x80 then [n]
  else if n < 0x800 then [0xC0 + n / 0x40, 0x80 + n % 0x40]
  else if n < 0x10000 then
    [0xE0 + n / 0x1000, 0x80 + (n / 0x40) % 0x40, 0x80 + n % 0x40]
  else
    [0xF0 + n / 0x40000, 0x80 + (n / 0x1000) % 0x40, 0x80 + (n / 0x40) % 0x40, 0x80 + n % 0x40]

namespace Json

/-- JS truthiness (`Boolean(v)`); integer model, so `NaN` does not arise. -/
def truthy : Json → Bool
  | .undef => false
  | .null => false
  | .bool b => b
  | .num n => n != 0
  | .str s => s != ""
  | .arr _ => true
  | .obj _ => true

/-- `typeof v === 'object' && v` — true exactly for arrays and objects
(`null` is already excluded by truthiness in every use site). -/
def isObjLike : Json → Bool
  | .arr _ => true
  | .obj _ => true
  | _ => false

def isArr : Json → Bool
  | .arr _ => true
  | _ => false

/-- `v === undefined`. -/
def isUndef : Json → Bool
  | .undef => true
  | _ => false

/-- `null` or `undefined`: property access on these throws. -/
def isNullish : Json → Bool
  | .null => true
  | .undef => true
  | _ => false

/-- `v === true`. -/
def isBoolTrue : Json → Bool
  | .bool true => true
  | _ => false

/-- `v === lit` for a string literal. -/
def strEq : Json → String → Bool
  | .str t, s => t = s
  | _, _ => false

end Json

/-- JS strict equality / SameValueZero on runtime values: primitives
compare by value; two object or array values are distinct references in
the programs modelled here (no schema value is ever inserted twice into
the same `Set`, nor compared with itself via `===`), so they compare
unequal. -/
def jsStrictEq : Json → Json → Bool
  | .undef, .undef => true
  | .null, .null => true
  | .bool x, .bool y => x == y
  | .num x, .num y => x == y
  | .str x, .str y => x == y
  | _, _ => false

namespace Json

/-- A string that is a canonical array index (`"0"`, `"17"`, …); JS array
property lookup only hits an element for the canonical decimal form. -/
def canonicalIndex (s : String) : Option Nat :=
  if s.data ≠ [] ∧ s.data.all Char.isDigit then
    let i := s.data.foldl (fun n c => n * 10 + (c.toNat - 48)) 0
    if toString i = s then some i else none
  else none

/-- Property lookup `v[k]`, returning `undef` for a missing property.
Arrays expose their elements under canonical indices and `length`;
strings expose characters and `length`. -/
def get : Json → String → Json
  | .obj fields, k =>
    match fields.find? (fun kv => kv.1 = k) with
    | some kv => kv.2
    | none => .undef
  | .arr l, k =>
    if k = "length" then .num l.length
    else
      match canonicalIndex k with
      | some i => if h : i < l.length then l.get ⟨i, h⟩ else .undef
      | none => .undef
  | .str s, k =>
    if k = "length" then .num s.length
    else
      match canonicalIndex k with
      | some i =>
        if h : i < s.data.length then .str (String.singleton (s.data.get ⟨i, h⟩)) else .undef
      | none => .undef
  | _, _ => .undef

end Json

/-- `o[k] = v` on an object field list: overwrite in place if the key is
present (JS keeps the original key position), append otherwise. -/
def objSetList : List (String × Json) → String → Json → List (String × Json)
  | [], k, v => [(k, v)]
  | (k1, v1) :: rest, k, v =>
    if k1 = k then (k, v) :: rest else (k1, v1) :: objSetList rest k v

namespace Json

/-- `v.k = w` property assignment; a silent no-op on primitives (and on
arrays, whose expando properties the model does not track). -/
def setProp : Json → String → Json → Json
  | .obj fields, k, v => .obj (objSetList fields k v)
  | j, _, _ => j

/-- `Object.entries(v)` (own enumerable string-keyed entries). -/
def entries : Json → List (String × Json)
  | .obj fields => fields
  | .arr l => l.enum.map (fun p => (toString p.1, p.2))
  | .str s => s.data.enum.map (fun p => (toString p.1, .str (String.singleton p.2)))
  | _ => []

end Json

/-- Spread/`Object.assign` of the entries of `j` onto the field list
`acc` (`{...acc, ...j}`). -/
def spreadInto (acc : List (String × Json)) (j : Json) : List (String × Json) :=
  j.entries.foldl (fun a kv => objSetList a kv.1 kv.2) acc

/-- `{...j}` as a field list. -/
def jsSpread (j : Json) : List (String × Json) :=
  spreadInto [] j

/-- `delete o[k]` on a field list. -/
def eraseKey (fields : List (String × Json)) (k : String) : List (String × Json) :=
  fields.filter (fun kv => kv.1 ≠ k)

/-- String coercion `String(v)` (integer numbers; arrays joined by commas
with `null`/`undefined` elements as empty strings, as in JS). -/
def jsToString : Json → String
  | .undef => "undefined"
  | .null => "null"
  | .bool b => if b then "true" else "false"
  | .num n => toString n
  | .str s => s
  | .arr l => String.intercalate ","
      (l.attach.map (fun x =>
        if x.1.isNullish then "" else jsToString x.1))
  | .obj _ => "[object Object]"
decreasing_by
  simp_wf
  have h1 := List.sizeOf_lt_of_mem x.2
  omega

/-- Keys of a field list. -/
def keysOf (fields : List (String × Json)) : List String :=
  fields.map Prod.fst

/-- No duplicate keys in a field list. -/
def nodupKeys (fields : List (String × Json)) : Prop :=
  (keysOf fields).Nodup

instance (fields : List (String × Json)) : Decidable (nodupKeys fields) := by
  unfold nodupKeys; infer_instance

namespace Json

/-- Well-formedness: the value is a possible JavaScript runtime value,
i.e. no object holds two fields with the same key. -/
def WFb : Json → Bool
  | .obj fields =>
      decide (nodupKeys fields) &&
      fields.attach.all (fun kv => WFb kv.1.2)
  | .arr l => l.attach.all (fun x => WFb x.1)
  | _ => true
decreasing_by
  · simp_wf
    have h1 := List.sizeOf_lt_of_mem kv.2
    have h2 : sizeOf kv.1.2 < sizeOf kv.1 := by
      obtain ⟨a, b⟩ := kv.1
      simp
    omega
  · simp_wf
    have h1 := List.sizeOf_lt_of_mem x.2
    omega

end Json

/-! ## String helpers mirroring JS string primitives -/

/-- `String.prototype.toLowerCase` (ASCII; the compiler only lowercases
HTTP verb keys and file extensions). -/
def jsToLower (s : String) : String := strMap Char.toLower s

/-- `String.prototype.toUpperCase` (ASCII). -/
def jsToUpper (s : String) : String := strMap Char.toUpper s

/-- Characters removed by `sanitizeToolName`'s control-character strip
(`[\x00-\x1F\x7F]`). -/
def jsIsControl (c : Char) : Bool := c.toNat < 32 || c.toNat = 127

/-- JS whitespace for `String.prototype.trim`. -/
def jsIsSpace (c : Char) : Bool :=
  (9 ≤ c.toNat && c.toNat ≤ 13) || c.toNat = 32 || c.toNat = 160 ||
  c.toNat = 0x1680 || (0x2000 ≤ c.toNat && c.toNat ≤ 0x200A) ||
  c.toNat = 0x2028 || c.toNat = 0x2029 || c.toNat = 0x202F ||
  c.toNat = 0x205F || c.toNat = 0x3000 || c.toNat = 0xFEFF

/-- `String.prototype.trim`. -/
def jsTrim (s : String) : String :=
  ⟨(s.data.dropWhile jsIsSpace).reverse.dropWhile jsIsSpace |>.reverse⟩

/-! ## `src/lib/security.js` -/

/-- The `defaultSecurityConfig` object of `security.js`.  `baseDirectory`
is a nullable string (`none` models `null`). -/
structure SecurityConfig where
  allowedSchemes : List String
  allowedHosts : List String
  blockPrivateIPs : Bool
  allowedExtensions : List String
  baseDirectory : Option String
  maxFileSize : Nat
deriving Repr, DecidableEq

def defaultSecurityConfig : SecurityConfig :=
  { allowedSchemes := ["https"]
    allowedHosts := []
    blockPrivateIPs := true
    allowedExtensions := [".yaml", ".yml", ".json"]
    baseDirectory := none
    maxFileSize := 10 * 1024 * 1024 }

/-- The `/^172\.(1[6-9]|2\d|3[01])\./` pattern of `PRIVATE_IP_RANGES`. -/
def is172Range (h : String) : Bool :=
  strStartsWith h "172." &&
    match h.data.drop 4 with
    | c0 :: c1 :: c2 :: _ =>
      c2 = '.' &&
        ((c0 = '1' && '6' ≤ c1 && c1 ≤ '9') ||
         (c0 = '2' && c1.isDigit) ||
         (c0 = '3' && (c1 = '0' || c1 = '1')))
    | _ => false

/-- `isPrivateIP`: the hostname matches one of `PRIVATE_IP_RANGES`. -/
def isPrivateIP (hostname : String) : Bool :=
  strStartsWith hostname "127." ||
  strStartsWith hostname "10." ||
  is172Range hostname ||
  strStartsWith hostname "192.168." ||
  strStartsWith hostname "169.254." ||
  hostname = "::1" ||
  strStartsWith hostname "fe80:" ||
  strStartsWith hostname "fc00:" ||
  strStartsWith hostname "fd00:"

/-- Result of the WHATWG URL parser (`new URL(...)`), an external
collaborator: `protocol` keeps its trailing colon (`"https:"`), exactly
the fields `validateURL` reads. -/
structure ParsedURL where
  protocol : String
  hostname : String
deriving Repr, DecidableEq

/-- The allowlist entry test inside `validateURL` (exact match, or a
`*.domain` wildcard matching the domain itself or any subdomain). -/
def hostEntryMatches (entry hostname : String) : Bool :=
  if strStartsWith entry "*." then
    let domain := strDrop entry 2
    hostname = domain || strEndsWith hostname ("." ++ domain)
  else
    hostname = entry

/-- `validateURL` after the URL has been parsed (`new URL` itself is the
external parser; a parse failure raises `Invalid URL` before any of the
checks modelled here run).  Checks run in source order: scheme, host
allowlist, private-IP block. -/
def validateURL (u : ParsedURL) (config : SecurityConfig) : Except String ParsedURL :=
  if ¬ config.allowedSchemes.contains (strDropRight u.protocol 1) then
    .error ("URL scheme " ++ u.protocol ++ " not allowed")
  else if config.allowedHosts ≠ [] ∧
      ¬ config.allowedHosts.any (fun host => hostEntryMatches host u.hostname) then
    .error ("Host " ++ u.hostname ++ " not in allowlist")
  else if config.blockPrivateIPs ∧ isPrivateIP u.hostname then
    .error ("Access to private/internal IP addresses is blocked for security: " ++ u.hostname)
  else
    .ok u

/-- `path.extname` (POSIX): extension of the basename, empty when the
only dot is the leading one. -/
def extname (p : String) : String :=
  let b := (strSplitOnChar '/' p).getLastD ""
  let dotIdxs := (b.data.enum.filter (fun ic => ic.2 = '.')).map Prod.fst
  match dotIdxs.getLast? with
  | some i => if 0 < i then ⟨b.data.drop i⟩ else ""
  | none => ""

/-- What `fs.existsSync`/`fs.statSync` report for a path; the file system
is an external collaborator passed in as an oracle. -/
structure FileStat where
  fsExists : Bool
  fsIsFile : Bool
  fsSize : Nat
deriving Repr, DecidableEq

/-- `validateFilePath`.  `resolve` is Node's `path.resolve` (external,
depends on the working directory), `stat` the file-system oracle;
`path.sep` is `/` (POSIX).  Checks run in source order: extension,
existence, is-a-file, size, then the base-directory traversal check. -/
def validateFilePath (resolve : String → String) (stat : String → FileStat)
    (filePath : String) (config : SecurityConfig) : Except String String :=
  let resolvedPath := resolve filePath
  let ext := jsToLower (extname resolvedPath)
  if ¬ config.allowedExtensions.contains ext then
    .error ("File extension " ++ ext ++ " not allowed")
  else if ¬ (stat resolvedPath).fsExists then
    .error ("File not found: " ++ resolvedPath)
  else if ¬ (stat resolvedPath).fsIsFile then
    .error ("Path is not a file: " ++ resolvedPath)
  else if config.maxFileSize < (stat resolvedPath).fsSize then
    .error "File size exceeds maximum allowed"
  else
    match config.baseDirectory with
    | some b =>
      if b ≠ "" then
        let baseDir := resolve b
        if ¬ strStartsWith resolvedPath (baseDir ++ "/") ∧ resolvedPath ≠ baseDir then
          .error ("File path " ++ resolvedPath ++ " is outside allowed base directory " ++ baseDir)
        else
          .ok resolvedPath
      else
        .ok resolvedPath
    | none => .ok resolvedPath

/-- `sanitizeToolName`: reject a non-string or empty name, strip control
characters, trim, truncate to 200 characters, reject if nothing
remains.  The compiler always passes a string, so the argument is a
`String` here and the `typeof` guard reduces to the emptiness check. -/
def sanitizeToolName (name : String) : Except String String :=
  if name = "" then
    .error "Tool name must be a non-empty string"
  else
    let sanitized : String := ⟨(jsTrim ⟨name.data.filter (fun c => ¬ jsIsControl c)⟩).data.take 200⟩
    if sanitized = "" then
      .error "Tool name becomes empty after sanitization"
    else
      .ok sanitized

/-- `validatePort` on an integer port (the `Number.isInteger` guard holds
by typing; range check as in the source). -/
def validatePort (port : Int) : Except String Int :=
  if port < 1 ∨ 65535 < port then
    .error "Port must be between 1 and 65535"
  else
    .ok port

/-- Whether a call threw (`Except.error`). -/
def isFailure {ε α : Type} : Except ε α → Bool
  | .error _ => true
  | .ok _ => false

/-! ### Concrete collaborator oracles used in the security examples -/

/-- A `path.resolve` oracle for a process whose working directory is
`/allowed/sub`: absolute paths resolve to themselves, `../escape.yaml`
to the parent directory. -/
def resolveDemo (p : String) : String :=
  if strStartsWith p "/" then p
  else if p = "../escape.yaml" then "/allowed/escape.yaml"
  else "/allowed/sub/" ++ p

/-- A file-system oracle on which every path is an existing small file. -/
def statDemo (_ : String) : FileStat :=
  { fsExists := true, fsIsFile := true, fsSize := 100 }

def cfgBaseSub : SecurityConfig :=
  { defaultSecurityConfig with baseDirectory := some "/allowed/sub" }

def cfgBaseAllowed : SecurityConfig :=
  { defaultSecurityConfig with baseDirectory := some "/allowed" }

/-! ## `src/lib/schema.js` -/

/-- Runtime failures: a thrown `TypeError` (property access on
`null`/`undefined`, calling a missing method), or exhaustion of the fuel
that stands in for the unbounded recursion of `resolveSchemaRefs`. -/
inductive JsErr where
  | outOfFuel
  | typeErr
deriving Repr, DecidableEq

namespace Json

/-- Elements of an array value (empty for non-arrays). -/
def elems : Json → List Json
  | .arr l => l
  | _ => []

/-- `v.length > 0` as evaluated by JS (`undefined > 0` is false). -/
def lengthPos (j : Json) : Bool :=
  match j.get "length" with
  | .num n => 0 < n
  | _ => false

end Json

/-- `Array.prototype.join(sep)` element coercion (`null`/`undefined`
become empty strings). -/
def jsJoin (l : List Json) (sep : String) : String :=
  String.intercalate sep
    (l.map (fun x => if x.isNullish then "" else jsToString x))

/-- The worker for `[...new Set(l)]`: keep the first occurrence of each
element, comparing with SameValueZero (`jsStrictEq`). -/
def jsDedupAux (seen : List Json) : List Json → List Json
  | [] => []
  | x :: rest =>
    if seen.any (fun y => jsStrictEq y x) then jsDedupAux seen rest
    else x :: jsDedupAux (x :: seen) rest

/-- `[...new Set(l)]` in insertion order. -/
def jsDedup (l : List Json) : List Json := jsDedupAux [] l

/-- The four location buckets and per-location required lists built by
`extractParameters`, plus the warning count for nameless parameters. -/
structure ExtractState where
  pathParams : List (String × Json)
  queryParams : List (String × Json)
  headerParams : List (String × Json)
  cookieParams : List (String × Json)
  reqPath : List String
  reqQuery : List String
  reqHeader : List String
  reqCookie : List String
  warnings : Nat
deriving Repr

noncomputable instance : DecidableEq ExtractState := fun a b => by
  cases a
  cases b
  exact decidable_of_iff' _ (Iff.of_eq (ExtractState.mk.injEq _ _ _ _ _ _ _ _ _ _ _ _ _ _ _ _ _ _))

def ExtractState.init : ExtractState :=
  ⟨[], [], [], [], [], [], [], [], 0⟩

/-- One iteration of the `for (const param of operation.parameters)`
loop of `extractParameters`.  A nullish entry throws on `param.in`;
a falsy name is skipped with a warning; only the four recognised
locations store anything. -/
def paramStep (st : ExtractState) (param : Json) : Except JsErr ExtractState :=
  if param.isNullish then .error .typeErr
  else
    let name := param.get "name"
    if ¬ name.truthy then .ok { st with warnings := st.warnings + 1 }
    else
      let key := jsToString name
      let schemaV := param.get "schema"
      let schema := if schemaV.truthy then schemaV else Json.obj [("type", .str "string")]
      let t0 := if (schema.get "type").truthy then schema.get "type" else Json.str "string"
      let ps0 := spreadInto [("type", t0)] schema
      let ps1 :=
        if (param.get "description").truthy then
          objSetList ps0 "description" (param.get "description")
        else ps0
      let ps2 :=
        if ¬ (param.get "example").isUndef then
          objSetList ps1 "example" (param.get "example")
        else ps1
      let psch := Json.obj ps2
      let isReq := (param.get "required").isBoolTrue
      let location := param.get "in"
      if location.strEq "path" then
        .ok { st with pathParams := objSetList st.pathParams key psch,
                      reqPath := if isReq then st.reqPath ++ [key] else st.reqPath }
      else if location.strEq "query" then
        .ok { st with queryParams := objSetList st.queryParams key psch,
                      reqQuery := if isReq then st.reqQuery ++ [key] else st.reqQuery }
      else if location.strEq "header" then
        .ok { st with headerParams := objSetList st.headerParams key psch,
                      reqHeader := if isReq then st.reqHeader ++ [key] else st.reqHeader }
      else if location.strEq "cookie" then
        .ok { st with cookieParams := objSetList st.cookieParams key psch,
                      reqCookie := if isReq then st.reqCookie ++ [key] else st.reqCookie }
      else
        .ok st

/-- Result of `extractParameters`: buckets, the `parameters.body` schema
(`Json.null` when absent, aliasing the operation's own schema object),
and the operation as it stands afterwards — `parameters.body.required =
true` writes through that alias into the operation. -/
structure ExtractResult where
  st : ExtractState
  body : Json
  opAfter : Json
deriving Repr

noncomputable instance : DecidableEq ExtractResult := fun a b => by
  cases a
  cases b
  exact decidable_of_iff' _ (Iff.of_eq (ExtractResult.mk.injEq _ _ _ _ _ _))

/-- The request-body half of `extractParameters` (it is pure: every
property access in it is guarded by a truthiness check).  Yields the
`parameters.body` schema and the operation as left behind — with
`required: true` written through the alias into the operation when the
request body is marked required and a schema object is present. -/
def extractBody (op : Json) (st : ExtractState) : ExtractResult :=
  let rb := op.get "requestBody"
  if rb.truthy then
    let content := rb.get "content"
    if content.truthy ∧ (content.get "application/json").truthy then
      let cj := content.get "application/json"
      let sv := cj.get "schema"
      let body0 := if sv.truthy then sv else Json.obj []
      if (rb.get "required").isBoolTrue then
        let body1 := body0.setProp "required" (.bool true)
        let opAfter :=
          if sv.truthy then
            op.setProp "requestBody"
              (rb.setProp "content"
                (content.setProp "application/json" (cj.setProp "schema" body1)))
          else op
        ⟨st, body1, opAfter⟩
      else
        ⟨st, body0, op⟩
    else
      ⟨st, Json.null, op⟩
  else
    ⟨st, Json.null, op⟩

/-- `extractParameters(operation)`. -/
def extractParameters (op : Json) : Except JsErr ExtractResult :=
  if op.isNullish then .error .typeErr
  else
    (match op.get "parameters" with
      | .arr l => l.foldlM paramStep ExtractState.init
      | _ => .ok ExtractState.init).map (extractBody op)

/-- The merging half of `buildInputSchema`, applied to an
`extractParameters` result: flatten the four buckets (tagging each
property with `x-parameter-location`), then flatten or nest the body
schema, deduplicate `required`, and close the schema with
`additionalProperties: false`. -/
def mergeInputSchema (r : ExtractResult) : Json :=
  let st := r.st
  let addLoc := fun (props : List (String × Json)) (bucket : List (String × Json)) (loc : String) =>
    bucket.foldl
      (fun a kv =>
        objSetList a kv.1 (Json.obj (objSetList (jsSpread kv.2) "x-parameter-location" (.str loc))))
      props
  let props4 :=
    addLoc (addLoc (addLoc (addLoc [] st.pathParams "path") st.queryParams "query")
      st.headerParams "header") st.cookieParams "cookie"
  let req1 : List Json := (st.reqPath ++ st.reqQuery ++ st.reqHeader ++ st.reqCookie).map Json.str
  let merged :=
    if r.body.truthy then
      let bp := r.body.get "properties"
      if bp.truthy then
        let props5 := spreadInto props4 bp
        let br := r.body.get "required"
        if br.truthy ∧ br.isArr then (props5, req1 ++ br.elems)
        else (props5, req1)
      else if (r.body.get "type").truthy then
        let props5 := objSetList props4 "_body" r.body
        if (r.body.get "required").isBoolTrue then (props5, req1 ++ [.str "_body"])
        else (props5, req1)
      else (props4, req1)
    else (props4, req1)
  Json.obj
    [("type", .str "object"),
     ("properties", .obj merged.1),
     ("required", .arr (jsDedup merged.2)),
     ("additionalProperties", .bool false)]

/-- `buildInputSchema(operation)` (the returned schema; the side effect
on the operation is `(extractParameters op).opAfter`). -/
def buildInputSchema (op : Json) : Except JsErr Json :=
  (extractParameters op).map mergeInputSchema

/-- The success-code scan of `extractOutputSchema` over
`['200', '201', '204', '206']`. -/
def findSuccessCode (responses : Json) : List String → Option Json
  | [] => none
  | code :: rest =>
    let response := responses.get code
    if response.truthy ∧ (response.get "content").truthy ∧
        ((response.get "content").get "application/json").truthy then
      let cj := (response.get "content").get "application/json"
      let schema := if (cj.get "schema").truthy then cj.get "schema" else Json.obj []
      some (.obj (objSetList (jsSpread schema) "x-response-code" (.str code)))
    else
      findSuccessCode responses rest

/-- `extractOutputSchema(operation)`. -/
def extractOutputSchema (op : Json) : Except JsErr Json :=
  if op.isNullish then .error .typeErr
  else .ok <|
    let responses := op.get "responses"
    if ¬ responses.truthy then .obj []
    else
      match findSuccessCode responses ["200", "201", "204", "206"] with
      | some s => s
      | none =>
        let dflt := responses.get "default"
        if dflt.truthy ∧ (dflt.get "content").truthy then
          let dc := (dflt.get "content").get "application/json"
          if dc.truthy ∧ (dc.get "schema").truthy then dc.get "schema"
          else .obj []
        else .obj []

/-- `extractErrorSchemas(operation)`: the map of `4xx`/`5xx` responses
(a nullish response value throws on `response.content`). -/
def extractErrorSchemas (op : Json) : Except JsErr Json :=
  if op.isNullish then .error .typeErr
  else
    let responses := op.get "responses"
    if ¬ responses.truthy then .ok (.obj [])
    else do
      let fields ← responses.entries.foldlM
        (fun (acc : List (String × Json)) (kv : String × Json) => do
          let code := kv.1
          let response := kv.2
          if strStartsWith code "4" ∨ strStartsWith code "5" then
            if response.isNullish then throw JsErr.typeErr
            else if (response.get "content").truthy ∧
                ((response.get "content").get "application/json").truthy then
              let cj := (response.get "content").get "application/json"
              let s := if (cj.get "schema").truthy then cj.get "schema" else Json.obj []
              pure (objSetList acc code s)
            else
              let d :=
                if (response.get "description").truthy then response.get "description"
                else Json.str "Error response"
              pure (objSetList acc code (Json.obj [("type", .str "object"), ("description", d)]))
          else
            pure acc)
        ([] : List (String × Json))
      pure (Json.obj fields)

/-- `buildToolDescription(operation, method, path)`.  Returns the
description together with the operation as it stands after the internal
`extractParameters` call (which may write into it). -/
def buildToolDescription (op : Json) (method path : String) :
    Except JsErr (String × Json) :=
  if op.isNullish then .error .typeErr
  else do
    let parts0 : List Json :=
      if (op.get "summary").truthy then [op.get "summary"]
      else if (op.get "operationId").truthy then [op.get "operationId"]
      else [.str (jsToUpper method ++ " " ++ path)]
    let parts1 :=
      if (op.get "description").truthy ∧ ¬ jsStrictEq (op.get "description") (op.get "summary") then
        parts0 ++ [op.get "description"]
      else parts0
    let er ← extractParameters op
    let reqHints :=
      (if er.st.reqPath ≠ [] then ["path: " ++ String.intercalate ", " er.st.reqPath] else []) ++
      (if er.st.reqQuery ≠ [] then ["query: " ++ String.intercalate ", " er.st.reqQuery] else []) ++
      (if er.st.reqHeader ≠ [] then ["header: " ++ String.intercalate ", " er.st.reqHeader] else [])
    let parts2 :=
      if reqHints ≠ [] then
        parts1 ++ [.str ("Required parameters: " ++ String.intercalate "; " reqHints)]
      else parts1
    let tags := op.get "tags"
    let parts3 ←
      if tags.truthy ∧ tags.lengthPos then
        match tags with
        | .arr l => pure (parts2 ++ [Json.str ("Tags: " ++ jsJoin l ", ")])
        | _ => throw JsErr.typeErr
      else
        pure parts2
    pure (String.intercalate ". " (parts3.map jsToString), er.opAfter)

/-- Lookup in a plain field list (the intermediate `result` object of
`resolveSchemaRefs`). -/
def objGetList (fields : List (String × Json)) (k : String) : Json :=
  (Json.obj fields).get k

/-- `acc[key] = value` fold used by the `reduce((acc,[k,v]) => …, {})`
rebuild of `properties`. -/
def objFromEntries (l : List (String × Json)) : List (String × Json) :=
  l.foldl (fun a kv => objSetList a kv.1 kv.2) []

/-- The path segments of a `$ref` pointer:
`schema.$ref.replace(/^#\//, '').split('/')`. -/
def refSegs (r : String) : List String :=
  strSplitOnChar '/' (if strStartsWith r "#/" then strDrop r 2 else r)

/-- The segment walk of `resolveSchemaRefs`: before each indexing step
the current value must be a (truthy) object; otherwise the walk fails
and the original schema is returned with a warning. -/
def walkSegsAux : Json → List String → Option Json
  | cur, [] => some cur
  | cur, seg :: rest =>
    if cur.isObjLike then walkSegsAux (cur.get seg) rest else none

/-- Resolve one `$ref` string against the spec root. -/
def walkTarget (spec : Json) (r : String) : Option Json :=
  walkSegsAux spec (refSegs r)

/-- The `result.properties` rebuild of `resolveSchemaRefs` (`f` is the
recursive resolver at the remaining fuel): map the resolver over the
entries of a truthy `properties` value and reduce them back into a fresh
object. -/
def resolvePropsStage (f : Json → Except JsErr Json) (fields : List (String × Json)) :
    Except JsErr (List (String × Json)) :=
  if (objGetList fields "properties").truthy then do
    let ents ← (objGetList fields "properties").entries.mapM
      (fun kv => do
        let w ← f kv.2
        pure (kv.1, w))
    pure (objSetList fields "properties" (.obj (objFromEntries ents)))
  else pure fields

/-- The `result.items` rebuild of `resolveSchemaRefs`. -/
def resolveItemsStage (f : Json → Except JsErr Json) (fields : List (String × Json)) :
    Except JsErr (List (String × Json)) :=
  if (objGetList fields "items").truthy then do
    let w ← f (objGetList fields "items")
    pure (objSetList fields "items" w)
  else pure fields

/-- The `result.allOf` / `oneOf` / `anyOf` rebuild of
`resolveSchemaRefs`: `.map` over a truthy value throws unless it is an
array. -/
def resolveListStage (f : Json → Except JsErr Json) (key : String)
    (fields : List (String × Json)) : Except JsErr (List (String × Json)) :=
  if (objGetList fields key).truthy then
    match objGetList fields key with
    | .arr l => do
      let l2 ← l.mapM f
      pure (objSetList fields key (.arr l2))
    | _ => throw JsErr.typeErr
  else pure fields

/-- `resolveSchemaRefs(schema, spec)`, indexed by fuel: the source
recursion has no cycle guard, so `outOfFuel` stands for a recursion that
has not finished within the given depth.  A truthy non-string `$ref`
(`.replace` missing) and a truthy non-array `allOf`/`oneOf`/`anyOf`
(`.map` missing) throw `TypeError`s. -/
def resolveSchemaRefs (spec : Json) : Nat → Json → Except JsErr Json
  | 0, _ => .error .outOfFuel
  | fuel + 1, schema =>
    if ¬ schema.isObjLike then .ok schema
    else
      let refv := schema.get "$ref"
      if refv.truthy then
        match refv with
        | .str r =>
          match walkTarget spec r with
          | none => .ok schema
          | some target => resolveSchemaRefs spec fuel target
        | _ => .error .typeErr
      else do
        let fields1 ← resolvePropsStage (fun v => resolveSchemaRefs spec fuel v) (jsSpread schema)
        let fields2 ← resolveItemsStage (fun v => resolveSchemaRefs spec fuel v) fields1
        let fields3 ← resolveListStage (fun v => resolveSchemaRefs spec fuel v) "allOf" fields2
        let fields4 ← resolveListStage (fun v => resolveSchemaRefs spec fuel v) "oneOf" fields3
        let fields5 ← resolveListStage (fun v => resolveSchemaRefs spec fuel v) "anyOf" fields4
        pure (Json.obj fields5)

/-! ## `src/lib/swagger-to-mcp.js` -/

/-- Upper-case hexadecimal digit (as produced by `encodeURIComponent`). -/
def hexDigitChar (n : Nat) : Char :=
  if n < 10 then Char.ofNat (48 + n) else Char.ofNat (55 + n)

/-- Characters `encodeURIComponent` leaves unescaped. -/
def uriUnescaped (c : Char) : Bool :=
  c.isAlpha || c.isDigit || [45, 95, 46, 33, 126, 42, 39, 40, 41].contains c.toNat

/-- `encodeURIComponent`: unescaped characters pass through, everything
else is percent-encoded per UTF-8 byte. -/
def encodeURIComponent (s : String) : String :=
  s.data.foldl
    (fun acc c =>
      if uriUnescaped c then acc.push c
      else acc ++ String.join
        ((utf8Bytes c).map
          (fun b => "%" ++ String.singleton (hexDigitChar (b / 16)) ++
            String.singleton (hexDigitChar (b % 16)))))
    ""

/-- Replace the first occurrence of the non-empty pattern in a
character list. -/
def replaceFirstAux (pat repl : List Char) : List Char → List Char
  | [] => []
  | c :: rest =>
    if pat.isPrefixOf (c :: rest) then repl ++ (c :: rest).drop pat.length
    else c :: replaceFirstAux pat repl rest

/-- `String.prototype.replace` with a plain (`$`-free) search string:
replace the first occurrence only. -/
def replaceFirst (s pat repl : String) : String :=
  if pat = "" then repl ++ s
  else ⟨replaceFirstAux pat.data repl.data s.data⟩

/-- `input[k]` (throws on nullish `input`). -/
def getChecked (j : Json) (k : String) : Except JsErr Json :=
  if j.isNullish then .error .typeErr else .ok (j.get k)

/-- The axios request configuration assembled by `buildRequestConfig`.
`params` is present only when at least one query parameter was set;
`data` only when a body was assembled. -/
structure RequestConfig where
  method : String
  url : String
  headers : List (String × Json)
  params : Option (List (String × Json))
  timeout : Nat
  data : Option Json
deriving Repr

noncomputable instance : DecidableEq RequestConfig := fun a b => by
  cases a
  cases b
  exact decidable_of_iff' _ (Iff.of_eq (RequestConfig.mk.injEq _ _ _ _ _ _ _ _ _ _ _ _))

/-- `buildRequestConfig(input, operation, method, route, baseUrl)`. -/
def buildRequestConfig (input op : Json) (method route baseUrl : String) :
    Except JsErr RequestConfig := do
  let er ← extractParameters op
  let url ← er.st.pathParams.foldlM
    (fun (u : String) kv => do
      let v ← getChecked input kv.1
      if ¬ v.isUndef then
        pure (replaceFirst u ("\x7b" ++ kv.1 ++ "\x7d") (encodeURIComponent (jsToString v)))
      else pure u)
    (baseUrl ++ route)
  let queryParams ← er.st.queryParams.foldlM
    (fun (acc : List (String × Json)) kv => do
      let v ← getChecked input kv.1
      if ¬ v.isUndef then pure (objSetList acc kv.1 v) else pure acc)
    ([] : List (String × Json))
  let headers ← er.st.headerParams.foldlM
    (fun (acc : List (String × Json)) kv => do
      let v ← getChecked input kv.1
      if ¬ v.isUndef then pure (objSetList acc kv.1 v) else pure acc)
    [("Content-Type", Json.str "application/json")]
  let mdata :=
    if ["post", "put", "patch"].contains (jsToLower method) then
      let removed := keysOf er.st.pathParams ++ keysOf er.st.queryParams ++
        keysOf er.st.headerParams
      let bodyData := removed.foldl eraseKey (jsSpread input)
      let bv := objGetList bodyData "_body"
      if ¬ bv.isUndef then some bv
      else if ¬ bodyData.isEmpty then some (Json.obj bodyData)
      else (none : Option Json)
    else (none : Option Json)
  pure
    { method := jsToLower method
      url := url
      headers := headers
      params := if ¬ queryParams.isEmpty then some queryParams else none
      timeout := 30000
      data := mdata }

/-- `getBaseUrl(spec)`: OpenAPI 3.x `servers[0].url`, else Swagger 2.0
`scheme://host basePath`, else the empty string. -/
def getBaseUrl (spec : Json) : Except JsErr Json :=
  if spec.isNullish then .error .typeErr
  else
    let servers := spec.get "servers"
    if servers.truthy ∧ servers.lengthPos then
      let s0 := servers.get "0"
      if s0.isNullish then .error .typeErr
      else .ok (s0.get "url")
    else
      let host := spec.get "host"
      if host.truthy then
        let schemes := spec.get "schemes"
        let scheme :=
          if schemes.truthy ∧ schemes.lengthPos then schemes.get "0" else Json.str "https"
        let basePath := if (spec.get "basePath").truthy then spec.get "basePath" else Json.str ""
        .ok (.str (jsToString scheme ++ "://" ++ jsToString host ++ jsToString basePath))
      else .ok (.str "")

/-- HTTP method keys recognised as operations by the compile loop. -/
def httpVerbs : List String :=
  ["get", "post", "put", "patch", "delete", "options", "head"]

/-- `route.replace(/[\/{}]/g, '_')` (the `operationId` fallback). -/
def underscoreRoute (route : String) : String :=
  route.map (fun c => if c = '/' ∨ c = '{' ∨ c = '}' then '_' else c)

/-- Mutable state of one `createMCPFromSwagger` run: the (mutated)
swagger document, the `registeredTools` name set (insertion order), the
manifest tool-name list, `toolCount`, and a per-verb-entry success log
recording how each attempted registration ended. -/
structure CompileSt where
  swagger : Json
  registered : List String
  manifestNames : List String
  toolCount : Nat
  okLog : List Bool
deriving Repr

noncomputable instance : DecidableEq CompileSt := fun a b => by
  cases a
  cases b
  exact decidable_of_iff' _ (Iff.of_eq (CompileSt.mk.injEq _ _ _ _ _ _ _ _ _ _))

/-- Write the (possibly mutated) operation object back into the swagger
document, modelling that `extractParameters` mutates it in place. -/
def writeBackOp (swagger : Json) (route method : String) (opAfter : Json) : Json :=
  let paths := swagger.get "paths"
  let methods := paths.get route
  swagger.setProp "paths" (paths.setProp route (methods.setProp method opAfter))

/-- Record a caught per-operation registration failure: the loop logs
and continues, adding nothing to the manifest. -/
def failEntry (st : CompileSt) : CompileSt :=
  { st with okLog := st.okLog ++ [false] }

/-- One iteration of the `for (const [method, operation] of
Object.entries(methods))` loop of `createMCPFromSwagger`.  `extFail`
is the external `ajv.compile` oracle: whether compiling the resolved
input schema throws.  Every failure point of the `try` block maps to
`failEntry`; note that the tool name is inserted into `registeredTools`
before the fallible schema work, exactly as in the source. -/
def stepOp (extFail : Json → Bool) (fuel : Nat) (st : CompileSt) (rm : String × String) :
    CompileSt :=
  let route := rm.1
  let method := rm.2
  if ¬ httpVerbs.contains (jsToLower method) then st
  else
    let op := ((st.swagger.get "paths").get route).get method
    if op.isNullish then failEntry st
    else
      let opIdV := op.get "operationId"
      let opId := if opIdV.truthy then jsToString opIdV else method ++ "_" ++ underscoreRoute route
      match sanitizeToolName (jsToUpper method ++ " " ++ route) with
      | .error _ => failEntry st
      | .ok name0 =>
        let toolName :=
          if st.registered.contains name0 then name0 ++ " (" ++ opId ++ ")" else name0
        let registered1 :=
          if st.registered.contains toolName then st.registered
          else st.registered ++ [toolName]
        let st1 := { st with registered := registered1 }
        match extractParameters op with
        | .error _ => failEntry st1
        | .ok er =>
          let inputSchema := mergeInputSchema er
          let st2 := { st1 with swagger := writeBackOp st1.swagger route method er.opAfter }
          match resolveSchemaRefs st2.swagger fuel inputSchema with
          | .error _ => failEntry st2
          | .ok resolvedIn =>
            let op1 := er.opAfter
            match extractOutputSchema op1 with
            | .error _ => failEntry st2
            | .ok outS =>
              match resolveSchemaRefs st2.swagger fuel outS with
              | .error _ => failEntry st2
              | .ok _ =>
                match extractErrorSchemas op1 with
                | .error _ => failEntry st2
                | .ok _ =>
                  match buildToolDescription op1 method route with
                  | .error _ => failEntry st2
                  | .ok dp =>
                    let st3 := { st2 with
                      swagger := writeBackOp st2.swagger route method dp.2 }
                    if extFail resolvedIn then failEntry st3
                    else
                      { st3 with
                        manifestNames := st3.manifestNames ++ [toolName]
                        toolCount := st3.toolCount + 1
                        okLog := st3.okLog ++ [true] }

/-- The `(route, method)` pairs visited by the nested compile loops
(key snapshot of `swagger.paths || {}`; values are re-read from the
threaded document, matching reference semantics). -/
def opEntries (swagger : Json) : List (String × String) :=
  let paths := if (swagger.get "paths").truthy then swagger.get "paths" else Json.obj []
  paths.entries.flatMap (fun rv => rv.2.entries.map (fun mv => (rv.1, mv.1)))

/-- Outcome of `createMCPFromSwagger`: in manifest-only mode it returns
`null` without starting a server; otherwise the MCP server value. -/
inductive MCPResult where
  | manifestNoServer : List String → MCPResult
  | server : List String → MCPResult
deriving Repr, DecidableEq

structure CompileOutcome where
  result : MCPResult
  final : CompileSt
deriving Repr

noncomputable instance : DecidableEq CompileOutcome := fun a b => by
  cases a
  cases b
  exact decidable_of_iff' _ (Iff.of_eq (CompileOutcome.mk.injEq _ _ _ _))

/-- `createMCPFromSwagger(swagger, options)`: port validation, base-URL
extraction, the per-operation registration loop, manifest-only early
return, and the zero-tools failure, in source order. -/
def createMCPFromSwagger (swagger : Json) (manifestOnly : Bool) (port : Int)
    (extFail : Json → Bool) (fuel : Nat) : Except String CompileOutcome :=
  if swagger.isNullish then .error "TypeError"
  else
    match validatePort port with
    | .error e => .error e
    | .ok _ =>
      match getBaseUrl swagger with
      | .error _ => .error "TypeError"
      | .ok base =>
        if ¬ base.truthy then .error "Could not determine base URL from Swagger spec"
        else
          let st0 : CompileSt := ⟨swagger, [], [], 0, []⟩
          let stF := (opEntries swagger).foldl (stepOp extFail fuel) st0
          if manifestOnly then .ok ⟨.manifestNoServer stF.manifestNames, stF⟩
          else if stF.toolCount = 0 then
            .error "No tools were registered. Cannot start MCP server."
          else .ok ⟨.server stF.manifestNames, stF⟩

/-! ## Measures for the termination analysis of `resolveSchemaRefs` -/

/-- Nesting height of a JS value (atoms and strings count 0). -/
def ht : Json → Nat
  | .obj fields => 1 + (fields.attach.map (fun kv => ht kv.1.2)).foldr max 0
  | .arr l => 1 + (l.attach.map (fun x => ht x.1)).foldr max 0
  | _ => 0
decreasing_by
  · simp_wf
    have h1 := List.sizeOf_lt_of_mem kv.2
    have h2 : sizeOf kv.1.2 < sizeOf kv.1 := by
      obtain ⟨a, b⟩ := kv.1
      simp
    omega
  · simp_wf
    have h1 := List.sizeOf_lt_of_mem x.2
    omega

/-- All `$ref` pointer strings occurring anywhere inside a value (every
pointer the resolver can possibly follow while processing it). -/
def refsOf : Json → List String
  | .obj fields => fields.attach.flatMap
      (fun kv =>
        (if kv.1.1 = "$ref" then
          match kv.1.2 with
          | .str r => [r]
          | _ => []
        else []) ++ refsOf kv.1.2)
  | .arr l => l.attach.flatMap (fun x => refsOf x.1)
  | _ => []
decreasing_by
  · simp_wf
    have h1 := List.sizeOf_lt_of_mem kv.2
    have h2 : sizeOf kv.1.2 < sizeOf kv.1 := by
      obtain ⟨a, b⟩ := kv.1
      simp
    omega
  · simp_wf
    have h1 := List.sizeOf_lt_of_mem x.2
    omega

/-- Fuel sufficient to resolve a value of height `h` whose reachable
pointers have rank below `r`, against a spec of height `H`. -/
def fuelBound (H r h : Nat) : Nat := h + 1 + r * (H + 1)

/-- A strict upper bound for `rank` on the listed pointers. -/
def rankBound (rank : String → Nat) (l : List String) : Nat :=
  l.foldr (fun q m => max (rank q + 1) m) 0

/-! ## Concrete inputs used by the claim examples -/

/-- An operation whose JSON request body is marked `required: true` at
the `requestBody` level and whose body schema declares `properties`
and a `required` list. -/
def opRequiredBody : Json := .obj [("requestBody", .obj [
  ("required", .bool true),
  ("content", .obj [("application/json", .obj [("schema", .obj [
    ("type", .str "object"),
    ("properties", .obj [("name", .obj [("type", .str "string")])]),
    ("required", .arr [.str "name"])])])])])]

/-- `opRequiredBody` as it stands after `extractParameters`: the body
schema's `required` list has been overwritten by the boolean `true`. -/
def opRequiredBodyAfter : Json := .obj [("requestBody", .obj [
  ("required", .bool true),
  ("content", .obj [("application/json", .obj [("schema", .obj [
    ("type", .str "object"),
    ("properties", .obj [("name", .obj [("type", .str "string")])]),
    ("required", .bool true)])])])])]

/-- The same operation without the `requestBody.required` flag. -/
def opRequiredBodyNoFlag : Json := .obj [("requestBody", .obj [
  ("content", .obj [("application/json", .obj [("schema", .obj [
    ("type", .str "object"),
    ("properties", .obj [("name", .obj [("type", .str "string")])]),
    ("required", .arr [.str "name"])])])])])]

/-- The `GET /pet/{petId}` operation of the spec's example. -/
def opPetById : Json := .obj [("parameters", .arr [.obj [
  ("name", .str "petId"), ("in", .str "path"), ("required", .bool true),
  ("schema", .obj [("type", .str "integer")])]])]

/-- The POST operation of the spec's example: path parameter `id` and a
JSON body with property `name`. -/
def opPostPet : Json := .obj [
  ("parameters", .arr [.obj [("name", .str "id"), ("in", .str "path")]]),
  ("requestBody", .obj [("content", .obj [("application/json", .obj [("schema", .obj [
    ("type", .str "object"),
    ("properties", .obj [("name", .obj [("type", .str "string")])])])])])])]

/-- A paths object in which three method keys normalise to the same
tool name `GET /a` and the two later operations share `operationId`
`x` — JS object keys are case sensitive, so all three are distinct
operations. -/
def swaggerDupNames : Json := .obj [
  ("info", .obj [("title", .str "t"), ("version", .str "1")]),
  ("servers", .arr [.obj [("url", .str "https://api.example.com")]]),
  ("paths", .obj [("/a", .obj [
    ("get", .obj []),
    ("GET", .obj [("operationId", .str "x")]),
    ("Get", .obj [("operationId", .str "x")])])])]

/-- A schema holding a self-referential `$ref`. -/
def cycSchema : Json := .obj [("$ref", .str "#/a")]

/-- A spec document whose pointer `#/a` resolves back to `cycSchema`. -/
def cycSpec : Json := .obj [("a", cycSchema)]

/-- A ref-free spec used for the acyclic-termination example. -/
def specNoRefLoop : Json := .obj [("a", .obj [("type", .str "string")])]

/-! ## Amended-spec characterisations for C4

These follow the corrected wording of the request-builder claim and are
compared against the source-translated `buildRequestConfig`. -/

/-- Amended-spec formula: the input fields remaining after removing
every declared path, query and header parameter name. -/
def specRemainingBody (input : Json) (st : ExtractState) : List (String × Json) :=
  (jsSpread input).filter (fun kv =>
    !((keysOf st.pathParams ++ keysOf st.queryParams ++ keysOf st.headerParams).contains kv.1))

/-- Amended-spec formula for a mutating request's body: a `_body` field
becomes the entire body verbatim; otherwise the remaining fields form
the body when non-empty, and no body is sent when none remain. -/
def specMutatingData (input : Json) (st : ExtractState) : Option Json :=
  if ¬ (objGetList (specRemainingBody input st) "_body").isUndef then
    some (objGetList (specRemainingBody input st) "_body")
  else if ¬ (specRemainingBody input st).isEmpty then
    some (Json.obj (specRemainingBody input st))
  else none

/-- Amended-spec formula for the query parameters of any request: the
declared query parameters whose value is present in the input — never
the undeclared leftover fields. -/
def specDeclaredQuery (input : Json) (st : ExtractState) : List (String × Json) :=
  (st.queryParams.filter (fun kv => ¬ (input.get kv.1).isUndef)).map
    (fun kv => (kv.1, input.get kv.1))

/-- `extractParameters opPostPet` evaluates to this result. -/
def erPost : ExtractResult :=
  ⟨⟨[("id", .obj [("type", .str "string")])], [], [], [], [], [], [], [], 0⟩,
   .obj [("type", .str "object"),
         ("properties", .obj [("name", .obj [("type", .str "string")])])],
   opPostPet⟩

/-- The request configuration built for the POST example. -/
def cPost : RequestConfig :=
  { method := "post", url := "https://api/pet/7",
    headers := [("Content-Type", .str "application/json")],
    params := none, timeout := 30000,
    data := some (.obj [("name", .str "Rex")]) }

/-! ## Helper lemmas on field lists -/

theorem objGetList_eq_find (fields : List (String × Json)) (k : String) :
    objGetList fields k =
      match fields.find? (fun kv => kv.1 = k) with
      | some kv => kv.2
      | none => .undef := rfl

theorem objGetList_objSetList_same (fields : List (String × Json)) (k : String) (v : Json) :
    objGetList (objSetList fields k v) k = v := by
  induction fields with
  | nil => simp [objSetList, objGetList, Json.get, List.find?]
  | cons kv rest ih =>
    obtain ⟨k1, v1⟩ := kv
    by_cases h : k1 = k
    · simp [objSetList, h, objGetList, Json.get, List.find?]
    · simpa [objSetList, h, objGetList, Json.get, List.find?] using ih

theorem keysOf_nil : keysOf [] = [] := rfl

theorem keysOf_cons (kv : String × Json) (rest : List (String × Json)) :
    keysOf (kv :: rest) = kv.1 :: keysOf rest := rfl

theorem keysOf_append (l1 l2 : List (String × Json)) :
    keysOf (l1 ++ l2) = keysOf l1 ++ keysOf l2 := by
  simp [keysOf]

theorem objGetList_objSetList_ne (fields : List (String × Json)) (k k2 : String) (v : Json)
    (h : k2 ≠ k) : objGetList (objSetList fields k v) k2 = objGetList fields k2 := by
  have hk : k ≠ k2 := Ne.symm h
  induction fields with
  | nil => simp [objSetList, objGetList, Json.get, List.find?, hk]
  | cons kv rest ih =>
    obtain ⟨k1, v1⟩ := kv
    by_cases h1 : k1 = k
    · subst h1
      simp [objSetList, objGetList, Json.get, List.find?, hk]
    · simp only [objSetList, if_neg h1]
      by_cases h2 : k1 = k2
      · simp [objGetList, Json.get, List.find?, h2]
      · simp only [objGetList, Json.get, List.find?] at ih ⊢
        simpa [h2] using ih

theorem keysOf_objSetList_mem (fields : List (String × Json)) (k : String) (v : Json)
    (h : k ∈ keysOf fields) : keysOf (objSetList fields k v) = keysOf fields := by
  induction fields with
  | nil => simp [keysOf_nil] at h
  | cons kv rest ih =>
    obtain ⟨k1, v1⟩ := kv
    by_cases h1 : k1 = k
    · simp [objSetList, h1, keysOf_cons]
    · rw [keysOf_cons] at h
      have h2 : k ∈ keysOf rest := by
        rcases List.mem_cons.mp h with hc | hc
        · exact absurd hc.symm h1
        · exact hc
      simp only [objSetList, if_neg h1, keysOf_cons]
      rw [ih h2]

theorem keysOf_objSetList_not_mem (fields : List (String × Json)) (k : String) (v : Json)
    (h : k ∉ keysOf fields) : objSetList fields k v = fields ++ [(k, v)] := by
  induction fields with
  | nil => simp [objSetList]
  | cons kv rest ih =>
    obtain ⟨k1, v1⟩ := kv
    rw [keysOf_cons] at h
    have h1 : k1 ≠ k := by
      intro hh
      exact h (by simp [hh])
    have h2 : k ∉ keysOf rest := by
      intro hh
      exact h (List.mem_cons_of_mem _ hh)
    simp [objSetList, h1, ih h2]

theorem nodupKeys_objSetList (fields : List (String × Json)) (k : String) (v : Json)
    (h : nodupKeys fields) : nodupKeys (objSetList fields k v) := by
  by_cases hm : k ∈ keysOf fields
  · unfold nodupKeys
    rw [keysOf_objSetList_mem fields k v hm]
    exact h
  · rw [keysOf_objSetList_not_mem fields k v hm]
    unfold nodupKeys
    rw [keysOf_append]
    rw [List.nodup_append]
    refine ⟨h, List.nodup_singleton _, ?_⟩
    intro a ha hb
    simp [keysOf] at hb
    subst hb
    exact hm ha

theorem objSetList_self (fields : List (String × Json)) (k : String) (v : Json)
    (hget : objGetList fields k = v) (hne : v ≠ .undef) :
    objSetList fields k v = fields := by
  induction fields with
  | nil =>
    simp [objGetList, Json.get, List.find?] at hget
    exact absurd hget.symm hne
  | cons kv rest ih =>
    obtain ⟨k1, v1⟩ := kv
    by_cases h1 : k1 = k
    · subst h1
      simp [objGetList, Json.get, List.find?] at hget
      simp [objSetList, hget]
    · simp only [objGetList, Json.get, List.find?] at hget ih
      simp [h1] at hget
      simp only [objSetList, if_neg h1]
      rw [ih hget]

theorem foldl_objSetList_append (l : List (String × Json)) :
    ∀ acc : List (String × Json), nodupKeys l → (∀ x ∈ keysOf l, x ∉ keysOf acc) →
    l.foldl (fun a kv => objSetList a kv.1 kv.2) acc = acc ++ l := by
  induction l with
  | nil => intro acc _ _; simp
  | cons kv rest ih =>
    intro acc hnd hdisj
    obtain ⟨k1, v1⟩ := kv
    unfold nodupKeys at hnd
    rw [keysOf_cons, List.nodup_cons] at hnd
    rw [keysOf_cons] at hdisj
    have hk1 : k1 ∉ keysOf acc := hdisj k1 (List.mem_cons_self _ _)
    have hstep : objSetList acc k1 v1 = acc ++ [(k1, v1)] :=
      keysOf_objSetList_not_mem acc k1 v1 hk1
    have hdisj2 : ∀ x ∈ keysOf rest, x ∉ keysOf (acc ++ [(k1, v1)]) := by
      intro x hx
      rw [keysOf_append]
      intro hmem
      rcases List.mem_append.mp hmem with hm | hm
      · exact hdisj x (List.mem_cons_of_mem _ hx) hm
      · have hx1 : x = k1 := by simpa [keysOf] using hm
        subst hx1
        exact hnd.1 hx
    rw [List.foldl_cons]
    rw [show objSetList acc (k1, v1).1 (k1, v1).2 = acc ++ [(k1, v1)] from hstep]
    rw [ih (acc ++ [(k1, v1)]) hnd.2 hdisj2]
    simp

theorem jsSpread_eq_self (fields : List (String × Json)) (h : nodupKeys fields) :
    jsSpread (.obj fields) = fields := by
  unfold jsSpread spreadInto
  have := foldl_objSetList_append fields [] h (by simp [keysOf_nil])
  simpa [Json.entries] using this

/-! ## `Except` bind lemmas -/

theorem except_bind_ok {ε α β : Type} (a : α) (f : α → Except ε β) :
    (Except.ok a >>= f) = f a := rfl

theorem except_bind_error {ε α β : Type} (e : ε) (f : α → Except ε β) :
    ((Except.error e : Except ε α) >>= f) = .error e := rfl

theorem except_pure_bind {ε α β : Type} (a : α) (f : α → Except ε β) :
    ((pure a : Except ε α) >>= f) = f a := rfl

theorem except_bind_ok_inv {ε α β : Type} {x : Except ε α} {f : α → Except ε β} {b : β}
    (h : (x >>= f) = .ok b) : ∃ a, x = .ok a ∧ f a = .ok b := by
  cases x with
  | error e => exact absurd h (by rw [except_bind_error]; exact fun hc => Except.noConfusion hc)
  | ok a => exact ⟨a, rfl, h⟩

/-! ## Additional field-list, well-formedness and `mapM` lemmas -/

theorem mem_objSetList (fields : List (String × Json)) (k : String) (v : Json) :
    ∀ kv ∈ objSetList fields k v, kv ∈ fields ∨ kv = (k, v) := by
  induction fields with
  | nil =>
    intro kv h
    simp [objSetList] at h
    exact Or.inr h
  | cons kv1 rest ih =>
    obtain ⟨k1, v1⟩ := kv1
    intro kv h
    by_cases h1 : k1 = k
    · simp only [objSetList, if_pos h1] at h
      rcases List.mem_cons.mp h with hc | hc
      · exact Or.inr hc
      · exact Or.inl (List.mem_cons_of_mem _ hc)
    · simp only [objSetList, if_neg h1] at h
      rcases List.mem_cons.mp h with hc | hc
      · exact Or.inl (by simp [hc])
      · rcases ih kv hc with hm | hm
        · exact Or.inl (List.mem_cons_of_mem _ hm)
        · exact Or.inr hm

theorem foldl_objSetList_nodup (l : List (String × Json)) :
    ∀ acc : List (String × Json), nodupKeys acc →
    nodupKeys (l.foldl (fun a kv => objSetList a kv.1 kv.2) acc) := by
  induction l with
  | nil => intro acc h; simpa using h
  | cons kv rest ih =>
    intro acc h
    rw [List.foldl_cons]
    exact ih _ (nodupKeys_objSetList acc kv.1 kv.2 h)

theorem mem_foldl_objSetList (l : List (String × Json)) :
    ∀ (acc : List (String × Json)) (kv : String × Json),
    kv ∈ l.foldl (fun a kv => objSetList a kv.1 kv.2) acc → kv ∈ acc ∨ kv ∈ l := by
  induction l with
  | nil => intro acc kv h; exact Or.inl (by simpa using h)
  | cons kv1 rest ih =>
    intro acc kv h
    rw [List.foldl_cons] at h
    rcases ih _ kv h with hm | hm
    · rcases mem_objSetList acc kv1.1 kv1.2 kv hm with hm2 | hm2
      · exact Or.inl hm2
      · exact Or.inr (by simp [hm2])
    · exact Or.inr (List.mem_cons_of_mem _ hm)

theorem keysOf_mem_iff (fields : List (String × Json)) (k : String) :
    k ∈ keysOf fields ↔ ∃ v, (k, v) ∈ fields := by
  unfold keysOf
  constructor
  · intro h
    obtain ⟨kv, hm, he⟩ := List.mem_map.mp h
    exact ⟨kv.2, by simpa [← he] using hm⟩
  · rintro ⟨v, hm⟩
    exact List.mem_map.mpr ⟨(k, v), hm, rfl⟩

theorem objGetList_not_mem (fields : List (String × Json)) (k : String)
    (h : k ∉ keysOf fields) : objGetList fields k = .undef := by
  induction fields with
  | nil => rfl
  | cons kv rest ih =>
    rw [keysOf_cons] at h
    have h1 : kv.1 ≠ k := fun hh => h (by simp [hh])
    have h2 : k ∉ keysOf rest := fun hh => h (List.mem_cons_of_mem _ hh)
    simp only [objGetList, Json.get, List.find?] at ih ⊢
    simpa [h1] using ih h2

theorem nodup_objFromEntries (l : List (String × Json)) : nodupKeys (objFromEntries l) :=
  foldl_objSetList_nodup l [] (by simp [nodupKeys, keysOf_nil])

theorem mem_objFromEntries (l : List (String × Json)) (kv : String × Json)
    (h : kv ∈ objFromEntries l) : kv ∈ l := by
  rcases mem_foldl_objSetList l [] kv h with hm | hm
  · simp at hm
  · exact hm

theorem objFromEntries_self (l : List (String × Json)) (h : nodupKeys l) :
    objFromEntries l = l := by
  unfold objFromEntries
  simpa using foldl_objSetList_append l [] h (by simp [keysOf_nil])

theorem nodup_jsSpread (j : Json) : nodupKeys (jsSpread j) :=
  foldl_objSetList_nodup j.entries [] (by simp [nodupKeys, keysOf_nil])

theorem mem_jsSpread (j : Json) (kv : String × Json) (h : kv ∈ jsSpread j) :
    kv ∈ j.entries := by
  rcases mem_foldl_objSetList j.entries [] kv h with hm | hm
  · simp at hm
  · exact hm

theorem digitChar_isDigit (n : Nat) (h : n < 10) : (Nat.digitChar n).isDigit = true := by
  interval_cases n <;> decide

theorem toDigitsCore_digits :
    ∀ (fuel n : Nat) (ds : List Char), (∀ c ∈ ds, c.isDigit = true) →
    ∀ c ∈ Nat.toDigitsCore 10 fuel n ds, c.isDigit = true := by
  intro fuel
  induction fuel with
  | zero =>
    intro n ds hds c hc
    simp only [Nat.toDigitsCore] at hc
    exact hds c hc
  | succ fuel ih =>
    intro n ds hds c hc
    simp only [Nat.toDigitsCore] at hc
    have hd : ∀ c2 ∈ (n % 10).digitChar :: ds, c2.isDigit = true := by
      intro c2 hc2
      rcases List.mem_cons.mp hc2 with hc2 | hc2
      · rw [hc2]
        exact digitChar_isDigit _ (Nat.mod_lt _ (by omega))
      · exact hds c2 hc2
    split at hc
    · exact hd c hc
    · exact ih (n / 10) _ hd c hc

theorem natToString_digits (i : Nat) : ∀ c ∈ (toString i).data, c.isDigit = true := by
  intro c hc
  have hc2 : c ∈ (Nat.toDigitsCore 10 (i + 1) i []).asString.data := hc
  rw [List.asString] at hc2
  exact toDigitsCore_digits (i + 1) i [] (by simp) c hc2

theorem toString_ne_of_nondigit (i : Nat) (k : String) (c : Char) (hc : c ∈ k.data)
    (hnd : c.isDigit = false) : toString i ≠ k := by
  intro he
  have := natToString_digits i c (by rw [he]; exact hc)
  rw [this] at hnd
  cases hnd

theorem arrSpread_get_undef (l : List Json) (k : String) (c : Char) (hc : c ∈ k.data)
    (hnd : c.isDigit = false) : objGetList (jsSpread (.arr l)) k = .undef := by
  apply objGetList_not_mem
  intro hk
  obtain ⟨v, hv⟩ := (keysOf_mem_iff _ _).mp hk
  have hm := mem_jsSpread _ _ hv
  simp only [Json.entries, List.mem_map] at hm
  obtain ⟨p, _, hp⟩ := hm
  have hk1 : toString p.1 = k := congrArg Prod.fst hp
  exact toString_ne_of_nondigit p.1 k c hc hnd hk1

theorem WFb_obj (fields : List (String × Json)) :
    Json.WFb (.obj fields) = true ↔
      nodupKeys fields ∧ ∀ kv ∈ fields, Json.WFb kv.2 = true := by
  have he : Json.WFb (.obj fields) =
      (decide (nodupKeys fields) && fields.attach.all (fun kv => Json.WFb kv.1.2)) := by
    simp [Json.WFb]
  rw [he, Bool.and_eq_true]
  constructor
  · rintro ⟨h1, h2⟩
    refine ⟨of_decide_eq_true h1, ?_⟩
    intro kv hm
    simpa using List.all_eq_true.mp h2 ⟨kv, hm⟩ (List.mem_attach _ _)
  · rintro ⟨h1, h2⟩
    refine ⟨decide_eq_true h1, List.all_eq_true.mpr ?_⟩
    intro x _
    simpa using h2 x.1 x.2

theorem WFb_arr (l : List Json) :
    Json.WFb (.arr l) = true ↔ ∀ x ∈ l, Json.WFb x = true := by
  have he : Json.WFb (.arr l) = l.attach.all (fun x => Json.WFb x.1) := by
    simp [Json.WFb]
  rw [he]
  constructor
  · intro h x hm
    simpa using List.all_eq_true.mp h ⟨x, hm⟩ (List.mem_attach _ _)
  · intro h
    refine List.all_eq_true.mpr ?_
    intro x _
    simpa using h x.1 x.2

theorem WFb_atom (j : Json) (h : j.isObjLike = false) : Json.WFb j = true := by
  cases j <;> simp [Json.WFb] <;> cases h

theorem WFb_get (j : Json) (k : String) (h : Json.WFb j = true) :
    Json.WFb (j.get k) = true := by
  cases j with
  | obj fields =>
    simp only [Json.get]
    cases hf : fields.find? (fun kv => kv.1 = k) with
    | none => exact WFb_atom .undef rfl
    | some kv =>
      exact ((WFb_obj fields).mp h).2 kv (List.mem_of_find?_eq_some hf)
  | arr l =>
    simp only [Json.get]
    split
    · exact WFb_atom (.num _) rfl
    · split
      · split
        · exact (WFb_arr l).mp h _ (List.get_mem _ _ _)
        · exact WFb_atom .undef rfl
      · exact WFb_atom .undef rfl
  | str s =>
    simp only [Json.get]
    split
    · exact WFb_atom (.num _) rfl
    · split
      · split
        · exact WFb_atom (.str _) rfl
        · exact WFb_atom .undef rfl
      · exact WFb_atom .undef rfl
  | undef => exact WFb_atom .undef rfl
  | null => exact WFb_atom .undef rfl
  | bool b => exact WFb_atom .undef rfl
  | num n => exact WFb_atom .undef rfl

theorem WFb_entries (j : Json) (h : Json.WFb j = true) :
    ∀ kv ∈ j.entries, Json.WFb kv.2 = true := by
  cases j with
  | obj fields => exact ((WFb_obj fields).mp h).2
  | arr l =>
    intro kv hm
    simp only [Json.entries, List.mem_map] at hm
    obtain ⟨p, hp, he⟩ := hm
    rw [List.enum_eq_zip_range] at hp
    have h2 : p.2 ∈ l := (List.of_mem_zip hp).2
    have : kv.2 = p.2 := by rw [← he]
    rw [this]
    exact (WFb_arr l).mp h _ h2
  | str s =>
    intro kv hm
    simp only [Json.entries, List.mem_map] at hm
    obtain ⟨p, _, he⟩ := hm
    have : kv.2 = .str (String.singleton p.2) := by rw [← he]
    rw [this]
    exact WFb_atom _ rfl
  | undef => intro kv hm; simp [Json.entries] at hm
  | null => intro kv hm; simp [Json.entries] at hm
  | bool b => intro kv hm; simp [Json.entries] at hm
  | num n => intro kv hm; simp [Json.entries] at hm

theorem WFb_walkSegsAux :
    ∀ (segs : List String) (cur t : Json), Json.WFb cur = true →
    walkSegsAux cur segs = some t → Json.WFb t = true := by
  intro segs
  induction segs with
  | nil =>
    intro cur t h hw
    simp only [walkSegsAux] at hw
    rw [← Option.some.inj hw]
    exact h
  | cons seg rest ih =>
    intro cur t h hw
    simp only [walkSegsAux] at hw
    split at hw
    · exact ih _ t (WFb_get cur seg h) hw
    · cases hw

theorem WFb_walkTarget (spec : Json) (r : String) (t : Json)
    (h : Json.WFb spec = true) (hw : walkTarget spec r = some t) : Json.WFb t = true :=
  WFb_walkSegsAux (refSegs r) spec t h hw

theorem except_mapM_mem {α β : Type} (f : α → Except JsErr β) :
    ∀ (l : List α) (l2 : List β), l.mapM f = .ok l2 → ∀ b ∈ l2, ∃ a ∈ l, f a = .ok b := by
  intro l
  induction l with
  | nil =>
    intro l2 h b hb
    rw [List.mapM_nil] at h
    have : ([] : List β) = l2 := Except.ok.inj h
    rw [← this] at hb
    simp at hb
  | cons a rest ih =>
    intro l2 h b hb
    rw [List.mapM_cons] at h
    obtain ⟨b0, hb0, h⟩ := except_bind_ok_inv h
    obtain ⟨bs, hbs, h⟩ := except_bind_ok_inv h
    have he : b0 :: bs = l2 := Except.ok.inj h
    rw [← he] at hb
    rcases List.mem_cons.mp hb with hc | hc
    · exact ⟨a, List.mem_cons_self _ _, hc ▸ hb0⟩
    · obtain ⟨a2, ha2, hfa⟩ := ih bs hbs b hc
      exact ⟨a2, List.mem_cons_of_mem _ ha2, hfa⟩

theorem except_mapM_id {α : Type} (f : α → Except JsErr α) :
    ∀ l : List α, (∀ a ∈ l, f a = .ok a) → l.mapM f = .ok l := by
  intro l
  induction l with
  | nil => intro _; rw [List.mapM_nil]; rfl
  | cons a rest ih =>
    intro h
    rw [List.mapM_cons]
    simp only [h a (List.mem_cons_self _ _), except_bind_ok,
      ih (fun a2 hm => h a2 (List.mem_cons_of_mem _ hm)), pure, Except.pure]

theorem except_mapM_congr {α β : Type} (f g : α → Except JsErr β) :
    ∀ (l : List α) (l2 : List β), (∀ a ∈ l, ∀ b, f a = .ok b → g a = .ok b) →
    l.mapM f = .ok l2 → l.mapM g = .ok l2 := by
  intro l
  induction l with
  | nil => intro l2 _ h; rwa [List.mapM_nil] at h ⊢
  | cons a rest ih =>
    intro l2 hfg h
    rw [List.mapM_cons] at h ⊢
    obtain ⟨b0, hb0, h⟩ := except_bind_ok_inv h
    obtain ⟨bs, hbs, h⟩ := except_bind_ok_inv h
    rw [hfg a (List.mem_cons_self _ _) b0 hb0, except_bind_ok,
      ih bs (fun a2 hm => hfg a2 (List.mem_cons_of_mem _ hm)) hbs, except_bind_ok]
    exact h

theorem truthy_ne_undef (v : Json) (h : v.truthy = true) : v ≠ .undef := by
  intro he
  rw [he] at h
  cases h

theorem objGetList_mem (fields : List (String × Json)) (k : String)
    (h : objGetList fields k ≠ .undef) : (k, objGetList fields k) ∈ fields := by
  induction fields with
  | nil => exact absurd rfl h
  | cons kv rest ih =>
    obtain ⟨k1, v1⟩ := kv
    by_cases h1 : k1 = k
    · subst h1
      have : objGetList ((k1, v1) :: rest) k1 = v1 := by
        simp [objGetList, Json.get, List.find?]
      rw [this]
      exact List.mem_cons_self _ _
    · have he : objGetList ((k1, v1) :: rest) k = objGetList rest k := by
        simp [objGetList, Json.get, List.find?, h1]
      rw [he] at h ⊢
      exact List.mem_cons_of_mem _ (ih h)

/-! ## Stage lemmas for `resolveSchemaRefs` -/

theorem resolvePropsStage_inv (f : Json → Except JsErr Json)
    (fields out : List (String × Json)) (h : resolvePropsStage f fields = .ok out) :
    ((objGetList fields "properties").truthy = false ∧ out = fields) ∨
    ((objGetList fields "properties").truthy = true ∧ ∃ ents,
      (objGetList fields "properties").entries.mapM
        (fun kv => do
          let w ← f kv.2
          pure (kv.1, w)) = .ok ents ∧
      out = objSetList fields "properties" (.obj (objFromEntries ents))) := by
  unfold resolvePropsStage at h
  by_cases hc : (objGetList fields "properties").truthy = true
  · rw [if_pos hc] at h
    obtain ⟨ents, hents, h⟩ := except_bind_ok_inv h
    exact Or.inr ⟨hc, ents, hents, (Except.ok.inj h).symm⟩
  · rw [if_neg hc] at h
    exact Or.inl ⟨Bool.not_eq_true _ ▸ hc, (Except.ok.inj h).symm⟩

theorem resolveItemsStage_inv (f : Json → Except JsErr Json)
    (fields out : List (String × Json)) (h : resolveItemsStage f fields = .ok out) :
    ((objGetList fields "items").truthy = false ∧ out = fields) ∨
    ((objGetList fields "items").truthy = true ∧ ∃ w,
      f (objGetList fields "items") = .ok w ∧ out = objSetList fields "items" w) := by
  unfold resolveItemsStage at h
  by_cases hc : (objGetList fields "items").truthy = true
  · rw [if_pos hc] at h
    obtain ⟨w, hw, h⟩ := except_bind_ok_inv h
    exact Or.inr ⟨hc, w, hw, (Except.ok.inj h).symm⟩
  · rw [if_neg hc] at h
    exact Or.inl ⟨Bool.not_eq_true _ ▸ hc, (Except.ok.inj h).symm⟩

theorem resolveListStage_inv (f : Json → Except JsErr Json) (key : String)
    (fields out : List (String × Json)) (h : resolveListStage f key fields = .ok out) :
    ((objGetList fields key).truthy = false ∧ out = fields) ∨
    ((objGetList fields key).truthy = true ∧ ∃ l l2, objGetList fields key = .arr l ∧
      l.mapM f = .ok l2 ∧ out = objSetList fields key (.arr l2)) := by
  unfold resolveListStage at h
  by_cases hc : (objGetList fields key).truthy = true
  · rw [if_pos hc] at h
    cases hv : objGetList fields key with
    | arr l =>
      rw [hv] at h
      obtain ⟨l2, hl2, h⟩ := except_bind_ok_inv h
      exact Or.inr ⟨rfl, l, l2, rfl, hl2, (Except.ok.inj h).symm⟩
    | undef => rw [hv] at h; exact Except.noConfusion h
    | null => rw [hv] at h; exact Except.noConfusion h
    | bool b => rw [hv] at h; exact Except.noConfusion h
    | num n => rw [hv] at h; exact Except.noConfusion h
    | str s => rw [hv] at h; exact Except.noConfusion h
    | obj fs => rw [hv] at h; exact Except.noConfusion h
  · rw [if_neg hc] at h
    exact Or.inl ⟨Bool.not_eq_true _ ▸ hc, (Except.ok.inj h).symm⟩

theorem resolvePropsStage_congr (f g : Json → Except JsErr Json)
    (hfg : ∀ v w, f v = .ok w → g v = .ok w) (fields out : List (String × Json))
    (h : resolvePropsStage f fields = .ok out) : resolvePropsStage g fields = .ok out := by
  unfold resolvePropsStage at h ⊢
  by_cases hc : (objGetList fields "properties").truthy = true
  · rw [if_pos hc] at h ⊢
    obtain ⟨ents, hents, h⟩ := except_bind_ok_inv h
    have hents2 : (objGetList fields "properties").entries.mapM
        (fun kv => do
          let w ← g kv.2
          pure (kv.1, w)) = .ok ents := by
      refine except_mapM_congr _ _ _ ents ?_ hents
      intro kv _ b hb
      obtain ⟨w, hw, hb2⟩ := except_bind_ok_inv hb
      rw [hfg kv.2 w hw, except_bind_ok]
      exact hb2
    rw [hents2, except_bind_ok]
    exact h
  · rw [if_neg hc] at h ⊢
    exact h

theorem resolveItemsStage_congr (f g : Json → Except JsErr Json)
    (hfg : ∀ v w, f v = .ok w → g v = .ok w) (fields out : List (String × Json))
    (h : resolveItemsStage f fields = .ok out) : resolveItemsStage g fields = .ok out := by
  unfold resolveItemsStage at h ⊢
  by_cases hc : (objGetList fields "items").truthy = true
  · rw [if_pos hc] at h ⊢
    obtain ⟨w, hw, h⟩ := except_bind_ok_inv h
    rw [hfg _ w hw, except_bind_ok]
    exact h
  · rw [if_neg hc] at h ⊢
    exact h

theorem resolveListStage_congr (f g : Json → Except JsErr Json)
    (hfg : ∀ v w, f v = .ok w → g v = .ok w) (key : String)
    (fields out : List (String × Json))
    (h : resolveListStage f key fields = .ok out) : resolveListStage g key fields = .ok out := by
  unfold resolveListStage at h ⊢
  by_cases hc : (objGetList fields key).truthy = true
  · rw [if_pos hc] at h ⊢
    cases hv : objGetList fields key with
    | arr l =>
      rw [hv] at h
      obtain ⟨l2, hl2, h⟩ := except_bind_ok_inv h
      simp only []
      rw [except_mapM_congr f g l l2 (fun a _ b hb => hfg a b hb) hl2, except_bind_ok]
      exact h
    | undef => rw [hv] at h; exact Except.noConfusion h
    | null => rw [hv] at h; exact Except.noConfusion h
    | bool b => rw [hv] at h; exact Except.noConfusion h
    | num n => rw [hv] at h; exact Except.noConfusion h
    | str s => rw [hv] at h; exact Except.noConfusion h
    | obj fs => rw [hv] at h; exact Except.noConfusion h
  · rw [if_neg hc] at h ⊢
    exact h

theorem resolvePropsStage_id (f : Json → Except JsErr Json) (fields : List (String × Json))
    (hstab : (objGetList fields "properties").truthy = false ∨
      ∃ pl, objGetList fields "properties" = .obj pl ∧ nodupKeys pl ∧
        ∀ kv ∈ pl, f kv.2 = .ok kv.2) :
    resolvePropsStage f fields = .ok fields := by
  unfold resolvePropsStage
  rcases hstab with hf | ⟨pl, hpl, hnd, hid⟩
  · rw [if_neg (by rw [hf]; exact Bool.false_ne_true)]
    rfl
  · rw [if_pos (by rw [hpl]; rfl), hpl]
    have hent : (Json.obj pl).entries = pl := rfl
    rw [hent]
    have hm : pl.mapM (fun kv => do
        let w ← f kv.2
        pure (kv.1, w)) = .ok pl := by
      refine except_mapM_id _ pl ?_
      intro kv hkv
      rw [hid kv hkv, except_bind_ok]
      rfl
    rw [hm, except_bind_ok, objFromEntries_self pl hnd,
      objSetList_self fields "properties" (.obj pl) hpl (by intro hc; cases hc)]
    rfl

theorem resolveItemsStage_id (f : Json → Except JsErr Json) (fields : List (String × Json))
    (hstab : (objGetList fields "items").truthy = false ∨
      f (objGetList fields "items") = .ok (objGetList fields "items")) :
    resolveItemsStage f fields = .ok fields := by
  unfold resolveItemsStage
  by_cases hc : (objGetList fields "items").truthy = true
  · rcases hstab with hf | hid
    · rw [hf] at hc
      cases hc
    · rw [if_pos hc, hid, except_bind_ok,
        objSetList_self fields "items" _ rfl (truthy_ne_undef _ hc)]
      rfl
  · rw [if_neg hc]
    rfl

theorem resolveListStage_id (f : Json → Except JsErr Json) (key : String)
    (fields : List (String × Json))
    (hstab : (objGetList fields key).truthy = false ∨
      ∃ l, objGetList fields key = .arr l ∧ ∀ e ∈ l, f e = .ok e) :
    resolveListStage f key fields = .ok fields := by
  unfold resolveListStage
  rcases hstab with hf | ⟨l, hl, hid⟩
  · rw [if_neg (by rw [hf]; exact Bool.false_ne_true)]
    rfl
  · rw [if_pos (by rw [hl]; rfl), hl]
    simp only []
    rw [except_mapM_id f l hid, except_bind_ok,
      objSetList_self fields key (.arr l) hl (by intro hc; cases hc)]
    rfl

theorem resolvePropsStage_get_ne (f : Json → Except JsErr Json)
    (fields out : List (String × Json)) (k : String)
    (h : resolvePropsStage f fields = .ok out) (hk : k ≠ "properties") :
    objGetList out k = objGetList fields k := by
  rcases resolvePropsStage_inv f fields out h with ⟨-, he⟩ | ⟨-, ents, -, he⟩
  · rw [he]
  · rw [he, objGetList_objSetList_ne _ _ _ _ hk]

theorem resolveItemsStage_get_ne (f : Json → Except JsErr Json)
    (fields out : List (String × Json)) (k : String)
    (h : resolveItemsStage f fields = .ok out) (hk : k ≠ "items") :
    objGetList out k = objGetList fields k := by
  rcases resolveItemsStage_inv f fields out h with ⟨-, he⟩ | ⟨-, w, -, he⟩
  · rw [he]
  · rw [he, objGetList_objSetList_ne _ _ _ _ hk]

theorem resolveListStage_get_ne (f : Json → Except JsErr Json) (key : String)
    (fields out : List (String × Json)) (k : String)
    (h : resolveListStage f key fields = .ok out) (hk : k ≠ key) :
    objGetList out k = objGetList fields k := by
  rcases resolveListStage_inv f key fields out h with ⟨-, he⟩ | ⟨-, l, l2, -, -, he⟩
  · rw [he]
  · rw [he, objGetList_objSetList_ne _ _ _ _ hk]

theorem resolvePropsStage_preserves (f : Json → Except JsErr Json)
    (fields out : List (String × Json)) (h : resolvePropsStage f fields = .ok out)
    (hnd : nodupKeys fields) (hW : ∀ kv ∈ fields, Json.WFb kv.2 = true)
    (hWf : ∀ v w, Json.WFb v = true → f v = .ok w → Json.WFb w = true) :
    nodupKeys out ∧ ∀ kv ∈ out, Json.WFb kv.2 = true := by
  rcases resolvePropsStage_inv f fields out h with ⟨-, he⟩ | ⟨ht, ents, hents, he⟩
  · rw [he]
    exact ⟨hnd, hW⟩
  · have hv1 : ("properties", objGetList fields "properties") ∈ fields :=
      objGetList_mem fields "properties" (truthy_ne_undef _ ht)
    have hWv1 : Json.WFb (objGetList fields "properties") = true := hW _ hv1
    have hWents : ∀ kv2 ∈ objFromEntries ents, Json.WFb kv2.2 = true := by
      intro kv2 hm
      obtain ⟨a, ha, hfa⟩ := except_mapM_mem _ _ ents hents kv2 (mem_objFromEntries _ _ hm)
      obtain ⟨w, hw, hfa2⟩ := except_bind_ok_inv hfa
      have hkv2 : (a.1, w) = kv2 := Except.ok.inj hfa2
      have hWa : Json.WFb a.2 = true := WFb_entries _ hWv1 a ha
      rw [← hkv2]
      exact hWf a.2 w hWa hw
    have hWnew : Json.WFb (.obj (objFromEntries ents)) = true :=
      (WFb_obj _).mpr ⟨nodup_objFromEntries ents, hWents⟩
    rw [he]
    refine ⟨nodupKeys_objSetList _ _ _ hnd, ?_⟩
    intro kv hm
    rcases mem_objSetList _ _ _ kv hm with hm2 | hm2
    · exact hW kv hm2
    · rw [hm2]
      exact hWnew

theorem resolveItemsStage_preserves (f : Json → Except JsErr Json)
    (fields out : List (String × Json)) (h : resolveItemsStage f fields = .ok out)
    (hnd : nodupKeys fields) (hW : ∀ kv ∈ fields, Json.WFb kv.2 = true)
    (hWf : ∀ v w, Json.WFb v = true → f v = .ok w → Json.WFb w = true) :
    nodupKeys out ∧ ∀ kv ∈ out, Json.WFb kv.2 = true := by
  rcases resolveItemsStage_inv f fields out h with ⟨-, he⟩ | ⟨ht, w, hw, he⟩
  · rw [he]
    exact ⟨hnd, hW⟩
  · have hv1 : ("items", objGetList fields "items") ∈ fields :=
      objGetList_mem fields "items" (truthy_ne_undef _ ht)
    have hWw : Json.WFb w = true := hWf _ w (hW _ hv1) hw
    rw [he]
    refine ⟨nodupKeys_objSetList _ _ _ hnd, ?_⟩
    intro kv hm
    rcases mem_objSetList _ _ _ kv hm with hm2 | hm2
    · exact hW kv hm2
    · rw [hm2]
      exact hWw

theorem resolveListStage_preserves (f : Json → Except JsErr Json) (key : String)
    (fields out : List (String × Json)) (h : resolveListStage f key fields = .ok out)
    (hnd : nodupKeys fields) (hW : ∀ kv ∈ fields, Json.WFb kv.2 = true)
    (hWf : ∀ v w, Json.WFb v = true → f v = .ok w → Json.WFb w = true) :
    nodupKeys out ∧ ∀ kv ∈ out, Json.WFb kv.2 = true := by
  rcases resolveListStage_inv f key fields out h with ⟨-, he⟩ | ⟨ht, l, l2, hl, hl2, he⟩
  · rw [he]
    exact ⟨hnd, hW⟩
  · have hv1 : (key, objGetList fields key) ∈ fields :=
      objGetList_mem fields key (truthy_ne_undef _ ht)
    have hWl : Json.WFb (.arr l) = true := hl ▸ hW _ hv1
    have hWnew : Json.WFb (.arr l2) = true := by
      refine (WFb_arr _).mpr ?_
      intro e2 hm
      obtain ⟨e, he2, hfe⟩ := except_mapM_mem f l l2 hl2 e2 hm
      exact hWf e e2 ((WFb_arr _).mp hWl e he2) hfe
    rw [he]
    refine ⟨nodupKeys_objSetList _ _ _ hnd, ?_⟩
    intro kv hm
    rcases mem_objSetList _ _ _ kv hm with hm2 | hm2
    · exact hW kv hm2
    · rw [hm2]
      exact hWnew

theorem resolve_succ (spec : Json) (n : Nat) (schema : Json) :
    resolveSchemaRefs spec (n + 1) schema =
      (if ¬ schema.isObjLike then .ok schema
       else
         if (schema.get "$ref").truthy then
           match schema.get "$ref" with
           | .str r =>
             match walkTarget spec r with
             | none => .ok schema
             | some target => resolveSchemaRefs spec n target
           | _ => .error .typeErr
         else do
           let fields1 ← resolvePropsStage (fun v => resolveSchemaRefs spec n v)
             (jsSpread schema)
           let fields2 ← resolveItemsStage (fun v => resolveSchemaRefs spec n v) fields1
           let fields3 ← resolveListStage (fun v => resolveSchemaRefs spec n v) "allOf" fields2
           let fields4 ← resolveListStage (fun v => resolveSchemaRefs spec n v) "oneOf" fields3
           let fields5 ← resolveListStage (fun v => resolveSchemaRefs spec n v) "anyOf" fields4
           pure (Json.obj fields5)) := rfl

theorem resolve_mono (spec : Json) :
    ∀ (n : Nat) (x y : Json), resolveSchemaRefs spec n x = .ok y →
    resolveSchemaRefs spec (n + 1) x = .ok y := by
  intro n
  induction n with
  | zero =>
    intro x y h
    exact Except.noConfusion h
  | succ n ih =>
    intro x y h
    rw [resolve_succ] at h ⊢
    by_cases hno : ¬ x.isObjLike = true
    · rw [if_pos hno] at h ⊢
      exact h
    · rw [if_neg hno] at h ⊢
      by_cases hr : (x.get "$ref").truthy = true
      · rw [if_pos hr] at h ⊢
        cases hrv : x.get "$ref" with
        | str r =>
          rw [hrv] at h
          simp only [] at h ⊢
          cases hw : walkTarget spec r with
          | none =>
            rw [hw] at h
            exact h
          | some t =>
            rw [hw] at h
            exact ih t y h
        | undef => rw [hrv] at h; exact Except.noConfusion h
        | null => rw [hrv] at h; exact Except.noConfusion h
        | bool b => rw [hrv] at h; exact Except.noConfusion h
        | num m => rw [hrv] at h; exact Except.noConfusion h
        | arr l => rw [hrv] at h; exact Except.noConfusion h
        | obj fs => rw [hrv] at h; exact Except.noConfusion h
      · rw [if_neg hr] at h ⊢
        obtain ⟨f1, h1, h⟩ := except_bind_ok_inv h
        obtain ⟨f2, h2, h⟩ := except_bind_ok_inv h
        obtain ⟨f3, h3, h⟩ := except_bind_ok_inv h
        obtain ⟨f4, h4, h⟩ := except_bind_ok_inv h
        obtain ⟨f5, h5, h⟩ := except_bind_ok_inv h
        have c1 := resolvePropsStage_congr _ _ (fun v w hv => ih v w hv) _ _ h1
        have c2 := resolveItemsStage_congr _ _ (fun v w hv => ih v w hv) _ _ h2
        have c3 := resolveListStage_congr _ _ (fun v w hv => ih v w hv) "allOf" _ _ h3
        have c4 := resolveListStage_congr _ _ (fun v w hv => ih v w hv) "oneOf" _ _ h4
        have c5 := resolveListStage_congr _ _ (fun v w hv => ih v w hv) "anyOf" _ _ h5
        simp only [c1, except_bind_ok, c2, c3, c4, c5]
        exact h

theorem resolve_idem (spec : Json) (hspec : Json.WFb spec = true) :
    ∀ (n : Nat) (x y : Json), Json.WFb x = true →
    resolveSchemaRefs spec n x = .ok y →
    Json.WFb y = true ∧ resolveSchemaRefs spec n y = .ok y := by
  intro n
  induction n with
  | zero =>
    intro x y _ h
    exact Except.noConfusion h
  | succ n ih =>
    intro x y hWx h
    rw [resolve_succ] at h
    by_cases hno : ¬ x.isObjLike = true
    · rw [if_pos hno] at h
      have he : x = y := Except.ok.inj h
      subst he
      refine ⟨hWx, ?_⟩
      rw [resolve_succ, if_pos hno]
    · rw [if_neg hno] at h
      by_cases hr : (x.get "$ref").truthy = true
      · rw [if_pos hr] at h
        cases hrv : x.get "$ref" with
        | str r =>
          rw [hrv] at h
          simp only [] at h
          cases hw : walkTarget spec r with
          | none =>
            rw [hw] at h
            have he : x = y := Except.ok.inj h
            subst he
            refine ⟨hWx, ?_⟩
            rw [resolve_succ, if_neg hno, if_pos hr, hrv]
            simp only []
            rw [hw]
          | some t =>
            rw [hw] at h
            have hWt : Json.WFb t = true := WFb_walkTarget spec r t hspec hw
            obtain ⟨hWy, hy⟩ := ih t y hWt h
            exact ⟨hWy, resolve_mono spec n y y hy⟩
        | undef => rw [hrv] at h; exact Except.noConfusion h
        | null => rw [hrv] at h; exact Except.noConfusion h
        | bool b => rw [hrv] at h; exact Except.noConfusion h
        | num m => rw [hrv] at h; exact Except.noConfusion h
        | arr l => rw [hrv] at h; exact Except.noConfusion h
        | obj fs => rw [hrv] at h; exact Except.noConfusion h
      · rw [if_neg hr] at h
        obtain ⟨f1, h1, h⟩ := except_bind_ok_inv h
        obtain ⟨f2, h2, h⟩ := except_bind_ok_inv h
        obtain ⟨f3, h3, h⟩ := except_bind_ok_inv h
        obtain ⟨f4, h4, h⟩ := except_bind_ok_inv h
        obtain ⟨f5, h5, h⟩ := except_bind_ok_inv h
        have hy : Json.obj f5 = y := Except.ok.inj h
        subst hy
        have hWf : ∀ v w, Json.WFb v = true → resolveSchemaRefs spec n v = .ok w →
            Json.WFb w = true := fun v w hv hw => (ih v w hv hw).1
        have N1 : nodupKeys (jsSpread x) := nodup_jsSpread x
        have W1 : ∀ kv ∈ jsSpread x, Json.WFb kv.2 = true :=
          fun kv hm => WFb_entries x hWx kv (mem_jsSpread x kv hm)
        have R1 : (objGetList (jsSpread x) "$ref").truthy = false := by
          have hobj : x.isObjLike = true := not_not.mp hno
          cases x with
          | obj fields =>
            rw [jsSpread_eq_self fields ((WFb_obj fields).mp hWx).1]
            exact Bool.not_eq_true _ ▸ hr
          | arr l =>
            rw [arrSpread_get_undef l "$ref" '$' (by decide) (by decide)]
            rfl
          | undef => simp [Json.isObjLike] at hobj
          | null => simp [Json.isObjLike] at hobj
          | bool b => simp [Json.isObjLike] at hobj
          | num m => simp [Json.isObjLike] at hobj
          | str s => simp [Json.isObjLike] at hobj
        obtain ⟨N2, W2⟩ := resolvePropsStage_preserves _ _ f1 h1 N1 W1 hWf
        obtain ⟨N3, W3⟩ := resolveItemsStage_preserves _ f1 f2 h2 N2 W2 hWf
        obtain ⟨N4, W4⟩ := resolveListStage_preserves _ "allOf" f2 f3 h3 N3 W3 hWf
        obtain ⟨N5, W5⟩ := resolveListStage_preserves _ "oneOf" f3 f4 h4 N4 W4 hWf
        obtain ⟨N6, W6⟩ := resolveListStage_preserves _ "anyOf" f4 f5 h5 N5 W5 hWf
        have hp5 : objGetList f5 "properties" = objGetList f1 "properties" := by
          rw [resolveListStage_get_ne _ "anyOf" f4 f5 _ h5 (by decide),
            resolveListStage_get_ne _ "oneOf" f3 f4 _ h4 (by decide),
            resolveListStage_get_ne _ "allOf" f2 f3 _ h3 (by decide),
            resolveItemsStage_get_ne _ f1 f2 _ h2 (by decide)]
        have hi5 : objGetList f5 "items" = objGetList f2 "items" := by
          rw [resolveListStage_get_ne _ "anyOf" f4 f5 _ h5 (by decide),
            resolveListStage_get_ne _ "oneOf" f3 f4 _ h4 (by decide),
            resolveListStage_get_ne _ "allOf" f2 f3 _ h3 (by decide)]
        have ha5 : objGetList f5 "allOf" = objGetList f3 "allOf" := by
          rw [resolveListStage_get_ne _ "anyOf" f4 f5 _ h5 (by decide),
            resolveListStage_get_ne _ "oneOf" f3 f4 _ h4 (by decide)]
        have ho5 : objGetList f5 "oneOf" = objGetList f4 "oneOf" := by
          rw [resolveListStage_get_ne _ "anyOf" f4 f5 _ h5 (by decide)]
        have hr5 : objGetList f5 "$ref" = objGetList (jsSpread x) "$ref" := by
          rw [resolveListStage_get_ne _ "anyOf" f4 f5 _ h5 (by decide),
            resolveListStage_get_ne _ "oneOf" f3 f4 _ h4 (by decide),
            resolveListStage_get_ne _ "allOf" f2 f3 _ h3 (by decide),
            resolveItemsStage_get_ne _ f1 f2 _ h2 (by decide),
            resolvePropsStage_get_ne _ _ f1 _ h1 (by decide)]
        have hstab1 : (objGetList f5 "properties").truthy = false ∨
            ∃ pl, objGetList f5 "properties" = .obj pl ∧ nodupKeys pl ∧
              ∀ kv ∈ pl, (fun v => resolveSchemaRefs spec n v) kv.2 = .ok kv.2 := by
          rw [hp5]
          rcases resolvePropsStage_inv _ _ f1 h1 with ⟨hf, he⟩ | ⟨ht, ents, hents, he⟩
          · rw [he]
            exact Or.inl hf
          · rw [he, objGetList_objSetList_same]
            right
            refine ⟨objFromEntries ents, rfl, nodup_objFromEntries ents, ?_⟩
            intro kv hkv
            obtain ⟨a, ha, hfa⟩ :=
              except_mapM_mem _ _ ents hents kv (mem_objFromEntries _ _ hkv)
            obtain ⟨w, hw, hfa2⟩ := except_bind_ok_inv hfa
            have hkv2 : (a.1, w) = kv := Except.ok.inj hfa2
            have hv1mem : ("properties", objGetList (jsSpread x) "properties") ∈
                jsSpread x := objGetList_mem _ _ (truthy_ne_undef _ ht)
            have hWv1 : Json.WFb (objGetList (jsSpread x) "properties") = true :=
              W1 _ hv1mem
            have hWa : Json.WFb a.2 = true := WFb_entries _ hWv1 a ha
            have hres := (ih a.2 w hWa hw).2
            rw [← hkv2]
            exact hres
        have hstab2 : (objGetList f5 "items").truthy = false ∨
            (fun v => resolveSchemaRefs spec n v) (objGetList f5 "items") =
              .ok (objGetList f5 "items") := by
          rw [hi5]
          rcases resolveItemsStage_inv _ f1 f2 h2 with ⟨hf, he⟩ | ⟨ht, w, hw, he⟩
          · rw [he]
            exact Or.inl hf
          · rw [he, objGetList_objSetList_same]
            right
            have hv1mem : ("items", objGetList f1 "items") ∈ f1 :=
              objGetList_mem _ _ (truthy_ne_undef _ ht)
            exact (ih _ w (W2 _ hv1mem) hw).2
        have hstab3 : (objGetList f5 "allOf").truthy = false ∨
            ∃ l, objGetList f5 "allOf" = .arr l ∧
              ∀ e ∈ l, (fun v => resolveSchemaRefs spec n v) e = .ok e := by
          rw [ha5]
          rcases resolveListStage_inv _ "allOf" f2 f3 h3 with ⟨hf, he⟩ |
            ⟨ht, l, l2, hl, hl2, he⟩
          · rw [he]
            exact Or.inl hf
          · rw [he, objGetList_objSetList_same]
            right
            refine ⟨l2, rfl, ?_⟩
            intro e he2
            obtain ⟨e0, he0, hfe⟩ := except_mapM_mem _ l l2 hl2 e he2
            have hv1mem : ("allOf", objGetList f2 "allOf") ∈ f2 :=
              objGetList_mem _ _ (truthy_ne_undef _ ht)
            have hWl : Json.WFb (.arr l) = true := hl ▸ W3 _ hv1mem
            exact (ih e0 e ((WFb_arr l).mp hWl e0 he0) hfe).2
        have hstab4 : (objGetList f5 "oneOf").truthy = false ∨
            ∃ l, objGetList f5 "oneOf" = .arr l ∧
              ∀ e ∈ l, (fun v => resolveSchemaRefs spec n v) e = .ok e := by
          rw [ho5]
          rcases resolveListStage_inv _ "oneOf" f3 f4 h4 with ⟨hf, he⟩ |
            ⟨ht, l, l2, hl, hl2, he⟩
          · rw [he]
            exact Or.inl hf
          · rw [he, objGetList_objSetList_same]
            right
            refine ⟨l2, rfl, ?_⟩
            intro e he2
            obtain ⟨e0, he0, hfe⟩ := except_mapM_mem _ l l2 hl2 e he2
            have hv1mem : ("oneOf", objGetList f3 "oneOf") ∈ f3 :=
              objGetList_mem _ _ (truthy_ne_undef _ ht)
            have hWl : Json.WFb (.arr l) = true := hl ▸ W4 _ hv1mem
            exact (ih e0 e ((WFb_arr l).mp hWl e0 he0) hfe).2
        have hstab5 : (objGetList f5 "anyOf").truthy = false ∨
            ∃ l, objGetList f5 "anyOf" = .arr l ∧
              ∀ e ∈ l, (fun v => resolveSchemaRefs spec n v) e = .ok e := by
          rcases resolveListStage_inv _ "anyOf" f4 f5 h5 with ⟨hf, he⟩ |
            ⟨ht, l, l2, hl, hl2, he⟩
          · rw [he]
            exact Or.inl hf
          · rw [he, objGetList_objSetList_same]
            right
            refine ⟨l2, rfl, ?_⟩
            intro e he2
            obtain ⟨e0, he0, hfe⟩ := except_mapM_mem _ l l2 hl2 e he2
            have hv1mem : ("anyOf", objGetList f4 "anyOf") ∈ f4 :=
              objGetList_mem _ _ (truthy_ne_undef _ ht)
            have hWl : Json.WFb (.arr l) = true := hl ▸ W5 _ hv1mem
            exact (ih e0 e ((WFb_arr l).mp hWl e0 he0) hfe).2
        refine ⟨(WFb_obj f5).mpr ⟨N6, W6⟩, ?_⟩
        rw [resolve_succ]
        have hnn : ¬ ¬ ((Json.obj f5).isObjLike = true) := not_not_intro (by rfl)
        rw [if_neg hnn]
        have R5 : ((Json.obj f5).get "$ref").truthy = false := by
          show (objGetList f5 "$ref").truthy = false
          rw [hr5]
          exact R1
        rw [if_neg (by rw [R5]; exact Bool.false_ne_true)]
        rw [show jsSpread (Json.obj f5) = f5 from jsSpread_eq_self f5 N6]
        have i1 := resolvePropsStage_id (fun v => resolveSchemaRefs spec n v) f5 hstab1
        have i2 := resolveItemsStage_id (fun v => resolveSchemaRefs spec n v) f5 hstab2
        have i3 := resolveListStage_id (fun v => resolveSchemaRefs spec n v) "allOf" f5 hstab3
        have i4 := resolveListStage_id (fun v => resolveSchemaRefs spec n v) "oneOf" f5 hstab4
        have i5 := resolveListStage_id (fun v => resolveSchemaRefs spec n v) "anyOf" f5 hstab5
        simp only [i1, except_bind_ok, i2, i3, i4, i5]
        rfl

/-! ## Height and reachable-pointer lemmas for the termination analysis -/

theorem le_foldr_max (a : Nat) : ∀ l : List Nat, a ∈ l → a ≤ l.foldr max 0 := by
  intro l
  induction l with
  | nil => intro h; simp at h
  | cons b rest ih =>
    intro h
    rw [List.foldr_cons]
    rcases List.mem_cons.mp h with hc | hc
    · rw [hc]
      exact le_max_left _ _
    · exact le_trans (ih hc) (le_max_right _ _)

theorem ht_obj_eq (fields : List (String × Json)) :
    ht (.obj fields) = 1 + (fields.attach.map (fun kv => ht kv.1.2)).foldr max 0 := by
  simp [ht]

theorem ht_arr_eq (l : List Json) :
    ht (.arr l) = 1 + (l.attach.map (fun x => ht x.1)).foldr max 0 := by
  simp [ht]

theorem ht_obj_lt (fields : List (String × Json)) (kv : String × Json) (hm : kv ∈ fields) :
    ht kv.2 < ht (.obj fields) := by
  rw [ht_obj_eq]
  have h1 : ht kv.2 ∈ fields.attach.map (fun kv => ht kv.1.2) :=
    List.mem_map.mpr ⟨⟨kv, hm⟩, List.mem_attach _ _, rfl⟩
  have := le_foldr_max _ _ h1
  omega

theorem ht_arr_lt (l : List Json) (x : Json) (hm : x ∈ l) : ht x < ht (.arr l) := by
  rw [ht_arr_eq]
  have h1 : ht x ∈ l.attach.map (fun x => ht x.1) :=
    List.mem_map.mpr ⟨⟨x, hm⟩, List.mem_attach _ _, rfl⟩
  have := le_foldr_max _ _ h1
  omega

theorem ht_atom (j : Json) (h : j.isObjLike = false) : ht j = 0 := by
  cases j <;> simp [ht] <;> cases h

theorem ht_get_le (x : Json) (k : String) : ht (x.get k) ≤ ht x := by
  cases x with
  | obj fields =>
    simp only [Json.get]
    cases hf : fields.find? (fun kv => kv.1 = k) with
    | none =>
      rw [ht_atom .undef rfl]
      exact Nat.zero_le _
    | some kv =>
      exact le_of_lt (ht_obj_lt fields kv (List.mem_of_find?_eq_some hf))
  | arr l =>
    simp only [Json.get]
    split
    · rw [ht_atom (.num _) rfl]
      exact Nat.zero_le _
    · split
      · split
        · exact le_of_lt (ht_arr_lt l _ (List.get_mem _ _ _))
        · rw [ht_atom .undef rfl]
          exact Nat.zero_le _
      · rw [ht_atom .undef rfl]
        exact Nat.zero_le _
  | str s =>
    simp only [Json.get]
    split
    · rw [ht_atom (.num _) rfl]
      exact Nat.zero_le _
    · split
      · split
        · rw [ht_atom (.str _) rfl]
          exact Nat.zero_le _
        · rw [ht_atom .undef rfl]
          exact Nat.zero_le _
      · rw [ht_atom .undef rfl]
        exact Nat.zero_le _
  | undef =>
    rw [ht_atom (Json.undef.get k) rfl]
    exact Nat.zero_le _
  | null =>
    rw [ht_atom (Json.null.get k) rfl]
    exact Nat.zero_le _
  | bool b =>
    rw [ht_atom ((Json.bool b).get k) rfl]
    exact Nat.zero_le _
  | num n =>
    rw [ht_atom ((Json.num n).get k) rfl]
    exact Nat.zero_le _

theorem ht_walkSegsAux :
    ∀ (segs : List String) (cur t : Json), walkSegsAux cur segs = some t → ht t ≤ ht cur := by
  intro segs
  induction segs with
  | nil =>
    intro cur t h
    simp only [walkSegsAux] at h
    rw [← Option.some.inj h]
  | cons seg rest ih =>
    intro cur t h
    simp only [walkSegsAux] at h
    split at h
    · exact le_trans (ih _ t h) (ht_get_le cur seg)
    · cases h

theorem ht_walkTarget (spec : Json) (r : String) (t : Json)
    (hw : walkTarget spec r = some t) : ht t ≤ ht spec :=
  ht_walkSegsAux (refSegs r) spec t hw

theorem refsOf_obj_eq (fields : List (String × Json)) :
    refsOf (.obj fields) = fields.attach.flatMap
      (fun kv =>
        (if kv.1.1 = "$ref" then
          match kv.1.2 with
          | .str r => [r]
          | _ => []
        else []) ++ refsOf kv.1.2) := by
  simp [refsOf]

theorem refsOf_arr_eq (l : List Json) :
    refsOf (.arr l) = l.attach.flatMap (fun x => refsOf x.1) := by
  simp [refsOf]

theorem refsOf_atom (j : Json) (h : j.isObjLike = false) : refsOf j = [] := by
  cases j <;> simp [refsOf] <;> cases h

theorem refsOf_obj_mem (fields : List (String × Json)) (kv : String × Json) (q : String)
    (hm : kv ∈ fields) (hq : q ∈ refsOf kv.2) : q ∈ refsOf (.obj fields) := by
  rw [refsOf_obj_eq]
  refine List.mem_flatMap.mpr ⟨⟨kv, hm⟩, List.mem_attach _ _, ?_⟩
  exact List.mem_append.mpr (Or.inr hq)

theorem refsOf_arr_mem (l : List Json) (x : Json) (q : String)
    (hm : x ∈ l) (hq : q ∈ refsOf x) : q ∈ refsOf (.arr l) := by
  rw [refsOf_arr_eq]
  exact List.mem_flatMap.mpr ⟨⟨x, hm⟩, List.mem_attach _ _, hq⟩

theorem refsOf_obj_inv (fields : List (String × Json)) (q : String)
    (h : q ∈ refsOf (.obj fields)) :
    ∃ kv ∈ fields, (kv.1 = "$ref" ∧ kv.2 = .str q) ∨ q ∈ refsOf kv.2 := by
  rw [refsOf_obj_eq] at h
  obtain ⟨a, _, hq⟩ := List.mem_flatMap.mp h
  refine ⟨a.1, a.2, ?_⟩
  rcases List.mem_append.mp hq with hc | hc
  · left
    by_cases hk : a.1.1 = "$ref"
    · rw [if_pos hk] at hc
      refine ⟨hk, ?_⟩
      cases hv : a.1.2 with
      | str r =>
        rw [hv] at hc
        have : q = r := by simpa using hc
        rw [this]
      | undef => rw [hv] at hc; simp at hc
      | null => rw [hv] at hc; simp at hc
      | bool b => rw [hv] at hc; simp at hc
      | num n => rw [hv] at hc; simp at hc
      | arr l => rw [hv] at hc; simp at hc
      | obj fs => rw [hv] at hc; simp at hc
    · rw [if_neg hk] at hc
      simp at hc
  · right
    exact hc

theorem refsOf_arr_inv (l : List Json) (q : String) (h : q ∈ refsOf (.arr l)) :
    ∃ x ∈ l, q ∈ refsOf x := by
  rw [refsOf_arr_eq] at h
  obtain ⟨a, _, hq⟩ := List.mem_flatMap.mp h
  exact ⟨a.1, a.2, hq⟩

theorem get_ref_refsOf (fields : List (String × Json)) (rr : String)
    (hget : objGetList fields "$ref" = .str rr) : rr ∈ refsOf (.obj fields) := by
  have hmem : ("$ref", Json.str rr) ∈ fields := by
    have := objGetList_mem fields "$ref" (by rw [hget]; intro hc; cases hc)
    rwa [hget] at this
  rw [refsOf_obj_eq]
  refine List.mem_flatMap.mpr ⟨⟨("$ref", .str rr), hmem⟩, List.mem_attach _ _, ?_⟩
  simp

theorem refsOf_get_sub (x : Json) (k : String) (q : String)
    (hq : q ∈ refsOf (x.get k)) : q ∈ refsOf x := by
  cases x with
  | obj fields =>
    simp only [Json.get] at hq
    cases hf : fields.find? (fun kv => kv.1 = k) with
    | none =>
      rw [hf] at hq
      rw [refsOf_atom .undef rfl] at hq
      simp at hq
    | some kv =>
      rw [hf] at hq
      exact refsOf_obj_mem fields kv q (List.mem_of_find?_eq_some hf) hq
  | arr l =>
    simp only [Json.get] at hq
    split at hq
    · rw [refsOf_atom (.num _) rfl] at hq
      simp at hq
    · split at hq
      · split at hq
        · exact refsOf_arr_mem l _ q (List.get_mem _ _ _) hq
        · rw [refsOf_atom .undef rfl] at hq
          simp at hq
      · rw [refsOf_atom .undef rfl] at hq
        simp at hq
  | str s =>
    simp only [Json.get] at hq
    split at hq
    · rw [refsOf_atom (.num _) rfl] at hq
      simp at hq
    · split at hq
      · split at hq
        · rw [refsOf_atom (.str _) rfl] at hq
          simp at hq
        · rw [refsOf_atom .undef rfl] at hq
          simp at hq
      · rw [refsOf_atom .undef rfl] at hq
        simp at hq
  | undef => rw [refsOf_atom (Json.undef.get k) rfl] at hq; simp at hq
  | null => rw [refsOf_atom (Json.null.get k) rfl] at hq; simp at hq
  | bool b => rw [refsOf_atom ((Json.bool b).get k) rfl] at hq; simp at hq
  | num n => rw [refsOf_atom ((Json.num n).get k) rfl] at hq; simp at hq

theorem refsOf_walkSegsAux (q : String) :
    ∀ (segs : List String) (cur t : Json), walkSegsAux cur segs = some t →
    q ∈ refsOf t → q ∈ refsOf cur := by
  intro segs
  induction segs with
  | nil =>
    intro cur t h hq
    simp only [walkSegsAux] at h
    rwa [← Option.some.inj h] at hq
  | cons seg rest ih =>
    intro cur t h hq
    simp only [walkSegsAux] at h
    split at h
    · exact refsOf_get_sub cur seg q (ih _ t h hq)
    · cases h

theorem refsOf_walkTarget (spec : Json) (r q : String) (t : Json)
    (hw : walkTarget spec r = some t) (hq : q ∈ refsOf t) : q ∈ refsOf spec :=
  refsOf_walkSegsAux q (refSegs r) spec t hw hq

theorem rankBound_lt (rank : String → Nat) (q : String) :
    ∀ l : List String, q ∈ l → rank q < rankBound rank l := by
  intro l
  induction l with
  | nil => intro h; simp at h
  | cons a rest ih =>
    intro h
    unfold rankBound at ih ⊢
    rw [List.foldr_cons]
    rcases List.mem_cons.mp h with hc | hc
    · rw [hc]
      omega
    · have := ih hc
      omega

theorem bind_no_oof {α β : Type} (x : Except JsErr α) (f : α → Except JsErr β)
    (hx : x ≠ .error .outOfFuel) (hf : ∀ a, x = .ok a → f a ≠ .error .outOfFuel) :
    (x >>= f) ≠ .error .outOfFuel := by
  cases x with
  | error e =>
    rw [except_bind_error]
    intro hc
    exact hx (by rw [Except.error.inj hc])
  | ok a =>
    rw [except_bind_ok]
    exact hf a rfl

theorem mapM_no_oof {α β : Type} (f : α → Except JsErr β) :
    ∀ l : List α, (∀ a ∈ l, f a ≠ .error .outOfFuel) → l.mapM f ≠ .error .outOfFuel := by
  intro l
  induction l with
  | nil =>
    intro _
    rw [List.mapM_nil]
    intro hc
    exact Except.noConfusion hc
  | cons a rest ih =>
    intro h
    rw [List.mapM_cons]
    refine bind_no_oof _ _ (h a (List.mem_cons_self _ _)) ?_
    intro b _
    refine bind_no_oof _ _ (ih (fun x hx => h x (List.mem_cons_of_mem _ hx))) ?_
    intro bs _ hc
    exact Except.noConfusion hc

theorem propsStage_no_oof (f : Json → Except JsErr Json) (fields : List (String × Json))
    (h : ∀ kv ∈ (objGetList fields "properties").entries, f kv.2 ≠ .error .outOfFuel) :
    resolvePropsStage f fields ≠ .error .outOfFuel := by
  unfold resolvePropsStage
  split
  · refine bind_no_oof _ _ (mapM_no_oof _ _ ?_) ?_
    · intro a ha
      refine bind_no_oof _ _ (h a ha) ?_
      intro w _ hc
      exact Except.noConfusion hc
    · intro ents _ hc
      exact Except.noConfusion hc
  · intro hc
    exact Except.noConfusion hc

theorem itemsStage_no_oof (f : Json → Except JsErr Json) (fields : List (String × Json))
    (h : f (objGetList fields "items") ≠ .error .outOfFuel) :
    resolveItemsStage f fields ≠ .error .outOfFuel := by
  unfold resolveItemsStage
  split
  · exact bind_no_oof _ _ h (fun w _ hc => Except.noConfusion hc)
  · intro hc
    exact Except.noConfusion hc

theorem listStage_no_oof (f : Json → Except JsErr Json) (key : String)
    (fields : List (String × Json))
    (h : ∀ l, objGetList fields key = .arr l → ∀ e ∈ l, f e ≠ .error .outOfFuel) :
    resolveListStage f key fields ≠ .error .outOfFuel := by
  unfold resolveListStage
  split
  · cases hv : objGetList fields key with
    | arr l =>
      exact bind_no_oof _ _ (mapM_no_oof f l (h l hv)) (fun l2 _ hc => Except.noConfusion hc)
    | undef => intro hc; exact JsErr.noConfusion (Except.error.inj hc)
    | null => intro hc; exact JsErr.noConfusion (Except.error.inj hc)
    | bool b => intro hc; exact JsErr.noConfusion (Except.error.inj hc)
    | num n => intro hc; exact JsErr.noConfusion (Except.error.inj hc)
    | str s => intro hc; exact JsErr.noConfusion (Except.error.inj hc)
    | obj fs => intro hc; exact JsErr.noConfusion (Except.error.inj hc)
  · intro hc
    exact Except.noConfusion hc

theorem ht_pos (s : Json) (h : s.isObjLike = true) : 1 ≤ ht s := by
  cases s with
  | obj fields =>
    rw [ht_obj_eq]
    omega
  | arr l =>
    rw [ht_arr_eq]
    omega
  | undef => simp [Json.isObjLike] at h
  | null => simp [Json.isObjLike] at h
  | bool b => simp [Json.isObjLike] at h
  | num n => simp [Json.isObjLike] at h
  | str s => simp [Json.isObjLike] at h

theorem entries_arr_val (l : List Json) (kv : String × Json)
    (h : kv ∈ (Json.arr l).entries) : kv.2 ∈ l := by
  simp only [Json.entries] at h
  obtain ⟨p, hp, he⟩ := List.mem_map.mp h
  rw [List.enum_eq_zip_range] at hp
  have h2 := (List.of_mem_zip hp).2
  rw [show kv.2 = p.2 from by rw [← he]]
  exact h2

theorem entries_bound (s v : Json) (kv : String × Json)
    (hv : ht v < ht s) (hrefs : ∀ q ∈ refsOf v, q ∈ refsOf s)
    (hkv : kv ∈ v.entries) (hs1 : 1 ≤ ht s) :
    ht kv.2 < ht s ∧ ∀ q ∈ refsOf kv.2, q ∈ refsOf s := by
  cases v with
  | obj pf =>
    exact ⟨lt_trans (ht_obj_lt pf kv hkv) hv,
      fun q hq => hrefs q (refsOf_obj_mem pf kv q hkv hq)⟩
  | arr pl =>
    have h2 : kv.2 ∈ pl := entries_arr_val pl kv hkv
    exact ⟨lt_trans (ht_arr_lt pl kv.2 h2) hv,
      fun q hq => hrefs q (refsOf_arr_mem pl kv.2 q h2 hq)⟩
  | str ss =>
    have he : ∃ c, kv.2 = Json.str (String.singleton c) := by
      simp only [Json.entries] at hkv
      obtain ⟨p, _, hp⟩ := List.mem_map.mp hkv
      exact ⟨p.2, by rw [← hp]⟩
    obtain ⟨c, hc⟩ := he
    constructor
    · rw [hc, ht_atom (Json.str (String.singleton c)) rfl]
      omega
    · rw [hc, refsOf_atom (Json.str (String.singleton c)) rfl]
      intro q hq
      simp at hq
  | undef => simp [Json.entries] at hkv
  | null => simp [Json.entries] at hkv
  | bool b => simp [Json.entries] at hkv
  | num n => simp [Json.entries] at hkv

theorem resolve_no_oof (spec : Json) (rank : String → Nat)
    (Hacyc : ∀ p t q, walkTarget spec p = some t → q ∈ refsOf t → rank q < rank p) :
    ∀ (r h : Nat) (s : Json) (n : Nat),
    (∀ q ∈ refsOf s, rank q < r) → ht s ≤ h → fuelBound (ht spec) r h ≤ n →
    resolveSchemaRefs spec n s ≠ .error .outOfFuel := by
  intro r
  induction r using Nat.strong_induction_on with
  | _ r ihr =>
    intro h
    induction h using Nat.strong_induction_on with
    | _ h ihh =>
      intro s n hrank hht hfuel
      obtain ⟨m, rfl⟩ : ∃ m, n = m + 1 := by
        refine ⟨n - 1, ?_⟩
        unfold fuelBound at hfuel
        generalize r * (ht spec + 1) = P at hfuel
        omega
      rw [resolve_succ]
      by_cases hno : ¬ s.isObjLike = true
      · rw [if_pos hno]
        intro hc
        exact Except.noConfusion hc
      · rw [if_neg hno]
        have hobj : s.isObjLike = true := not_not.mp hno
        by_cases hr : (s.get "$ref").truthy = true
        · rw [if_pos hr]
          cases hrv : s.get "$ref" with
          | str rr =>
            simp only []
            cases hw : walkTarget spec rr with
            | none =>
              intro hc
              exact Except.noConfusion hc
            | some t =>
              have hrr : rr ∈ refsOf s := by
                cases s with
                | obj fields => exact get_ref_refsOf fields rr hrv
                | arr l =>
                  exact Json.noConfusion (show Json.undef = Json.str rr from hrv)
                | undef => simp [Json.isObjLike] at hobj
                | null => simp [Json.isObjLike] at hobj
                | bool b => simp [Json.isObjLike] at hobj
                | num nn => simp [Json.isObjLike] at hobj
                | str ss => simp [Json.isObjLike] at hobj
              have hrank_rr : rank rr < r := hrank rr hrr
              obtain ⟨r0, hr0⟩ : ∃ r0, r = r0 + 1 := ⟨r - 1, by omega⟩
              have hH : ht t ≤ ht spec := ht_walkTarget spec rr t hw
              have hfuel2 : fuelBound (ht spec) (rank rr) (ht t) ≤ m := by
                have hm1 : rank rr ≤ r0 := by omega
                have hmul : rank rr * (ht spec + 1) ≤ r0 * (ht spec + 1) :=
                  Nat.mul_le_mul_right _ hm1
                have hsucc : (r0 + 1) * (ht spec + 1) =
                    r0 * (ht spec + 1) + (ht spec + 1) := Nat.succ_mul _ _
                unfold fuelBound at hfuel ⊢
                rw [hr0, hsucc] at hfuel
                generalize hP : r0 * (ht spec + 1) = P at hfuel hmul
                generalize hQ : rank rr * (ht spec + 1) = Q at hmul ⊢
                omega
              exact ihr (rank rr) hrank_rr (ht t) t m
                (fun q hq => Hacyc rr t q hw hq) (le_refl _) hfuel2
          | undef => intro hc; exact JsErr.noConfusion (Except.error.inj hc)
          | null => intro hc; exact JsErr.noConfusion (Except.error.inj hc)
          | bool b => intro hc; exact JsErr.noConfusion (Except.error.inj hc)
          | num nn => intro hc; exact JsErr.noConfusion (Except.error.inj hc)
          | arr l => intro hc; exact JsErr.noConfusion (Except.error.inj hc)
          | obj fs => intro hc; exact JsErr.noConfusion (Except.error.inj hc)
        · rw [if_neg hr]
          have hs1 : 1 ≤ ht s := ht_pos s hobj
          have hsubs : ∀ kv ∈ jsSpread s, ht kv.2 < ht s ∧
              ∀ q ∈ refsOf kv.2, q ∈ refsOf s := by
            intro kv hm
            have hment := mem_jsSpread s kv hm
            cases s with
            | obj fields =>
              exact ⟨ht_obj_lt fields kv hment,
                fun q hq => refsOf_obj_mem fields kv q hment hq⟩
            | arr l =>
              have h2 : kv.2 ∈ l := entries_arr_val l kv hment
              exact ⟨ht_arr_lt l kv.2 h2, fun q hq => refsOf_arr_mem l kv.2 q h2 hq⟩
            | undef => simp [Json.isObjLike] at hobj
            | null => simp [Json.isObjLike] at hobj
            | bool b => simp [Json.isObjLike] at hobj
            | num nn => simp [Json.isObjLike] at hobj
            | str ss => simp [Json.isObjLike] at hobj
          have hcall : ∀ v : Json, ht v < ht s → (∀ q ∈ refsOf v, q ∈ refsOf s) →
              resolveSchemaRefs spec m v ≠ .error .outOfFuel := by
            intro v hv hq
            refine ihh (ht v) (lt_of_lt_of_le hv hht) v m
              (fun q hqq => hrank q (hq q hqq)) (le_refl _) ?_
            unfold fuelBound at hfuel ⊢
            have hvh : ht v < h := lt_of_lt_of_le hv hht
            generalize r * (ht spec + 1) = P at hfuel ⊢
            omega
          have hval : ∀ key : String, (objGetList (jsSpread s) key = .undef) ∨
              (ht (objGetList (jsSpread s) key) < ht s ∧
               ∀ q ∈ refsOf (objGetList (jsSpread s) key), q ∈ refsOf s) := by
            intro key
            by_cases hu : objGetList (jsSpread s) key = .undef
            · exact Or.inl hu
            · exact Or.inr (hsubs _ (objGetList_mem _ _ hu))
          have hvcall : ∀ key : String,
              resolveSchemaRefs spec m (objGetList (jsSpread s) key) ≠
                .error .outOfFuel := by
            intro key
            rcases hval key with hu | ⟨hv, hq⟩
            · rw [hu]
              refine hcall .undef ?_ ?_
              · rw [ht_atom .undef rfl]
                omega
              · rw [refsOf_atom .undef rfl]
                intro q hq
                simp at hq
            · exact hcall _ hv hq
          have hentcall : ∀ key : String, ∀ kv ∈ (objGetList (jsSpread s) key).entries,
              resolveSchemaRefs spec m kv.2 ≠ .error .outOfFuel := by
            intro key kv hkv
            rcases hval key with hu | ⟨hv, hq⟩
            · rw [hu] at hkv
              simp [Json.entries] at hkv
            · obtain ⟨hh2, hq2⟩ := entries_bound s _ kv hv hq hkv hs1
              exact hcall kv.2 hh2 hq2
          have harrcall : ∀ key : String, ∀ l : List Json,
              objGetList (jsSpread s) key = .arr l →
              ∀ e ∈ l, resolveSchemaRefs spec m e ≠ .error .outOfFuel := by
            intro key l hl e he
            rcases hval key with hu | ⟨hv, hq⟩
            · rw [hl] at hu
              cases hu
            · rw [hl] at hv hq
              exact hcall e (lt_trans (ht_arr_lt l e he) hv)
                (fun q hqq => hq q (refsOf_arr_mem l e q he hqq))
          refine bind_no_oof _ _ (propsStage_no_oof _ _ (hentcall "properties")) ?_
          intro f1 h1
          refine bind_no_oof _ _ (itemsStage_no_oof _ _ ?_) ?_
          · rw [resolvePropsStage_get_ne _ _ f1 _ h1 (by decide)]
            exact hvcall "items"
          intro f2 h2
          refine bind_no_oof _ _ (listStage_no_oof _ "allOf" _ ?_) ?_
          · intro l hl
            rw [resolveItemsStage_get_ne _ f1 f2 _ h2 (by decide),
              resolvePropsStage_get_ne _ _ f1 _ h1 (by decide)] at hl
            exact harrcall "allOf" l hl
          intro f3 h3
          refine bind_no_oof _ _ (listStage_no_oof _ "oneOf" _ ?_) ?_
          · intro l hl
            rw [resolveListStage_get_ne _ "allOf" f2 f3 _ h3 (by decide),
              resolveItemsStage_get_ne _ f1 f2 _ h2 (by decide),
              resolvePropsStage_get_ne _ _ f1 _ h1 (by decide)] at hl
            exact harrcall "oneOf" l hl
          intro f4 h4
          refine bind_no_oof _ _ (listStage_no_oof _ "anyOf" _ ?_) ?_
          · intro l hl
            rw [resolveListStage_get_ne _ "oneOf" f3 f4 _ h4 (by decide),
              resolveListStage_get_ne _ "allOf" f2 f3 _ h3 (by decide),
              resolveItemsStage_get_ne _ f1 f2 _ h2 (by decide),
              resolvePropsStage_get_ne _ _ f1 _ h1 (by decide)] at hl
            exact harrcall "anyOf" l hl
          intro f5 _ hc
          exact Except.noConfusion hc

/-! ## Claim C2 — `validateURL` -/

/-- C2: with `blockPrivateIPs` set, `validateURL` fails on every
hostname matching a loopback/private/link-local pattern; it fails on
every URL whose scheme is not allowlisted (so `http://127.0.0.1/spec.json`
is rejected under the default configuration); it fails whenever a
non-empty host allowlist matches the hostname neither exactly nor by a
`*.domain` suffix rule; the private patterns are exactly the IPv4
prefixes 127., 10., 172.16–172.31., 192.168., 169.254. and IPv6 `::1`,
`fe80:`, `fc00:`, `fd00:`; and `https://api.example.com/spec.json`
passes the default configuration, returning the parsed URL. -/
theorem claim_C2_validateURL :
    (∀ (u : ParsedURL) (cfg : SecurityConfig),
        cfg.blockPrivateIPs = true → isPrivateIP u.hostname = true →
        isFailure (validateURL u cfg) = true) ∧
    (∀ (u : ParsedURL) (cfg : SecurityConfig),
        cfg.allowedSchemes.contains (strDropRight u.protocol 1) = false →
        isFailure (validateURL u cfg) = true) ∧
    (∀ (u : ParsedURL) (cfg : SecurityConfig),
        cfg.allowedHosts ≠ [] →
        (∀ entry ∈ cfg.allowedHosts, hostEntryMatches entry u.hostname = false) →
        isFailure (validateURL u cfg) = true) ∧
    (isPrivateIP "127.0.0.1" = true ∧ isPrivateIP "10.2.3.4" = true ∧
      isPrivateIP "172.16.0.1" = true ∧ isPrivateIP "172.31.9.9" = true ∧
      isPrivateIP "172.15.0.1" = false ∧ isPrivateIP "172.32.0.1" = false ∧
      isPrivateIP "192.168.1.1" = true ∧ isPrivateIP "169.254.7.7" = true ∧
      isPrivateIP "::1" = true ∧ isPrivateIP "fe80:0:0:0:0:0:0:1" = true ∧
      isPrivateIP "fc00:1:2:3:4:5:6:7" = true ∧ isPrivateIP "fd00:1:2:3:4:5:6:7" = true ∧
      isPrivateIP "api.example.com" = false) ∧
    isFailure (validateURL ⟨"http:", "127.0.0.1"⟩ defaultSecurityConfig) = true ∧
    validateURL ⟨"https:", "api.example.com"⟩ defaultSecurityConfig =
      .ok ⟨"https:", "api.example.com"⟩ := by
  refine ⟨?_, ?_, ?_, by decide, by decide, by decide⟩
  · intro u cfg hb hp
    unfold validateURL
    split
    · rfl
    · split
      · rfl
      · rw [if_pos ⟨hb, hp⟩]
        rfl
  · intro u cfg hs
    unfold validateURL
    rw [if_pos]
    · rfl
    · intro hc
      rw [hs] at hc
      exact Bool.false_ne_true hc
  · intro u cfg hne hall
    unfold validateURL
    split
    · rfl
    · rw [if_pos]
      · rfl
      · refine ⟨hne, ?_⟩
        intro hany
        obtain ⟨entry, hmem, hmatch⟩ := List.any_eq_true.mp hany
        rw [hall entry hmem] at hmatch
        exact Bool.false_ne_true hmatch

/-- Witness for C2: the private-IP, scheme and allowlist rejection
branches each fire on a concrete URL. -/
theorem claim_C2_validateURL_witness :
    isFailure (validateURL ⟨"https:", "10.2.3.4"⟩ defaultSecurityConfig) = true ∧
    isFailure (validateURL ⟨"ftp:", "api.example.com"⟩ defaultSecurityConfig) = true ∧
    isFailure (validateURL ⟨"https:", "evil.com"⟩
      { defaultSecurityConfig with allowedHosts := ["api.example.com", "*.trusted.org"] }) = true := by
  refine ⟨?_, ?_, ?_⟩
  · exact claim_C2_validateURL.1 ⟨"https:", "10.2.3.4"⟩ defaultSecurityConfig rfl (by decide)
  · exact claim_C2_validateURL.2.1 ⟨"ftp:", "api.example.com"⟩ defaultSecurityConfig (by decide)
  · exact claim_C2_validateURL.2.2.1 ⟨"https:", "evil.com"⟩ _ (by decide) (by decide)

/-! ## Claim C6 — `validateFilePath` -/

/-- C6: with a configured base directory, `validateFilePath` fails for
every resolved path that is neither the resolved base itself nor a
strict descendant (prefix of base plus separator); in particular the
sibling `/allowed-evil/x.yaml` is rejected for base `/allowed` even
though it starts with the substring `/allowed`; `../escape.yaml` is
rejected when the base is a subdirectory; and a file directly at the
base directory's root is accepted. -/
theorem claim_C6_validateFilePath :
    (∀ (resolve : String → String) (stat : String → FileStat) (fp b : String)
        (cfg : SecurityConfig),
        cfg.baseDirectory = some b → b ≠ "" →
        strStartsWith (resolve fp) (resolve b ++ "/") = false → resolve fp ≠ resolve b →
        isFailure (validateFilePath resolve stat fp cfg) = true) ∧
    (strStartsWith "/allowed-evil/x.yaml" "/allowed" = true ∧
      isFailure (validateFilePath resolveDemo statDemo "/allowed-evil/x.yaml" cfgBaseAllowed)
        = true) ∧
    isFailure (validateFilePath resolveDemo statDemo "../escape.yaml" cfgBaseSub) = true ∧
    validateFilePath resolveDemo statDemo "/allowed/spec.yaml" cfgBaseAllowed =
      .ok "/allowed/spec.yaml" := by
  refine ⟨?_, by decide, by decide, by decide⟩
  intro resolve stat fp b cfg hb hbne hpre hne
  unfold validateFilePath
  simp only [hb]
  split
  · rfl
  · split
    · rfl
    · split
      · rfl
      · split
        · rfl
        · rw [if_pos ⟨fun hc => Bool.false_ne_true (hpre ▸ hc), hne⟩]
          rfl

/-- Witness for C6: the traversal rejection applied to the concrete
escape path and subdirectory base. -/
theorem claim_C6_validateFilePath_witness :
    isFailure (validateFilePath resolveDemo statDemo "../escape.yaml" cfgBaseSub) = true :=
  claim_C6_validateFilePath.1 resolveDemo statDemo "../escape.yaml" "/allowed/sub" cfgBaseSub
    rfl (by decide) (by decide) (by decide)

/-! ## Claim C10 — parameters with unrecognised locations are dropped -/

theorem paramStep_skip (st : ExtractState) (p : Json)
    (hnull : p.isNullish = false) (hname : (p.get "name").truthy = true)
    (hlocs : ∀ loc ∈ (["path", "query", "header", "cookie"] : List String),
      (p.get "in").strEq loc = false) :
    paramStep st p = .ok st := by
  have h1 := hlocs "path" (by simp)
  have h2 := hlocs "query" (by simp)
  have h3 := hlocs "header" (by simp)
  have h4 := hlocs "cookie" (by simp)
  simp [paramStep, hnull, hname, h1, h2, h3, h4]


theorem foldlM_paramStep_skip (p : Json)
    (hstep : ∀ st : ExtractState, paramStep st p = .ok st) :
    ∀ (pre post : List Json) (init : ExtractState),
    (pre ++ p :: post).foldlM paramStep init = (pre ++ post).foldlM paramStep init := by
  intro pre post init
  rw [List.foldlM_append, List.foldlM_append]
  cases hm : List.foldlM paramStep init pre with
  | error e => simp [except_bind_error]
  | ok st2 =>
    simp only [except_bind_ok, List.foldlM]
    rw [hstep st2]
    simp [except_bind_ok]

theorem mergeInputSchema_opAfter_irrel (st : ExtractState) (body : Json) (o1 o2 : Json) :
    mergeInputSchema ⟨st, body, o1⟩ = mergeInputSchema ⟨st, body, o2⟩ := rfl

theorem extractBody_st (op : Json) (st : ExtractState) : (extractBody op st).st = st := by
  simp only [extractBody]
  split
  · split
    · split <;> rfl
    · rfl
  · rfl

theorem extractBody_merge_eq (op1 op2 : Json) (st : ExtractState)
    (h : op1.get "requestBody" = op2.get "requestBody") :
    mergeInputSchema (extractBody op1 st) = mergeInputSchema (extractBody op2 st) := by
  simp only [extractBody]
  rw [h]
  split
  · split
    · split
      · exact mergeInputSchema_opAfter_irrel _ _ _ _
      · exact mergeInputSchema_opAfter_irrel _ _ _ _
    · exact mergeInputSchema_opAfter_irrel _ _ _ _
  · exact mergeInputSchema_opAfter_irrel _ _ _ _

/-- C10: a declared parameter whose `in` location is missing or not one
of `path`/`query`/`header`/`cookie` (for example a Swagger 2.0 `body` or
`formData` parameter) contributes nothing: the loop body leaves every
bucket, every required list and the warning count unchanged, and the
tool's input schema built with or without the parameter is identical. -/
theorem claim_C10_unrecognized_location_dropped :
    (∀ (st : ExtractState) (p : Json),
        p.isNullish = false → (p.get "name").truthy = true →
        (∀ loc ∈ (["path", "query", "header", "cookie"] : List String),
          (p.get "in").strEq loc = false) →
        paramStep st p = .ok st) ∧
    (∀ (fields : List (String × Json)) (pre post : List Json) (p : Json),
        p.isNullish = false → (p.get "name").truthy = true →
        (∀ loc ∈ (["path", "query", "header", "cookie"] : List String),
          (p.get "in").strEq loc = false) →
        buildInputSchema (.obj (objSetList fields "parameters" (.arr (pre ++ p :: post)))) =
          buildInputSchema (.obj (objSetList fields "parameters" (.arr (pre ++ post))))) := by
  refine ⟨fun st p h1 h2 h3 => paramStep_skip st p h1 h2 h3, ?_⟩
  intro fields pre post p h1 h2 h3
  have hstep : ∀ st : ExtractState, paramStep st p = .ok st :=
    fun st => paramStep_skip st p h1 h2 h3
  have hget1 : (Json.obj (objSetList fields "parameters" (.arr (pre ++ p :: post)))).get
      "parameters" = .arr (pre ++ p :: post) :=
    objGetList_objSetList_same fields "parameters" _
  have hget2 : (Json.obj (objSetList fields "parameters" (.arr (pre ++ post)))).get
      "parameters" = .arr (pre ++ post) :=
    objGetList_objSetList_same fields "parameters" _
  have hrb1 : (Json.obj (objSetList fields "parameters" (.arr (pre ++ p :: post)))).get
      "requestBody" = objGetList fields "requestBody" :=
    objGetList_objSetList_ne fields "parameters" "requestBody" _ (by decide)
  have hrb2 : (Json.obj (objSetList fields "parameters" (.arr (pre ++ post)))).get
      "requestBody" = objGetList fields "requestBody" :=
    objGetList_objSetList_ne fields "parameters" "requestBody" _ (by decide)
  have hnn1 : (Json.obj (objSetList fields "parameters"
      (Json.arr (pre ++ p :: post)))).isNullish = false := rfl
  have hnn2 : (Json.obj (objSetList fields "parameters"
      (Json.arr (pre ++ post)))).isNullish = false := rfl
  unfold buildInputSchema extractParameters
  rw [hget1, hget2]
  simp only [hnn1, hnn2, Bool.false_eq_true, if_false]
  rw [foldlM_paramStep_skip p hstep pre post ExtractState.init]
  cases hfold : List.foldlM paramStep ExtractState.init (pre ++ post) with
  | error e => simp [hfold, Except.map]
  | ok stF =>
    simp only [hfold, Except.map]
    exact congrArg Except.ok (extractBody_merge_eq _ _ stF (hrb1.trans hrb2.symm))

/-- Witness for C10: a Swagger 2.0 `in: body` parameter named `name`
is silently absent from buckets and schema. -/
theorem claim_C10_witness :
    paramStep ExtractState.init
      (.obj [("name", .str "name"), ("in", .str "body")]) = .ok ExtractState.init ∧
    buildInputSchema (.obj (objSetList [] "parameters"
        (.arr ([] ++ .obj [("name", .str "name"), ("in", .str "body")] :: [])))) =
      buildInputSchema (.obj (objSetList [] "parameters" (.arr ([] ++ [])))) :=
  ⟨claim_C10_unrecognized_location_dropped.1 ExtractState.init _ (by decide) (by decide)
      (by decide),
   claim_C10_unrecognized_location_dropped.2 [] [] []
      (.obj [("name", .str "name"), ("in", .str "body")]) (by decide) (by decide) (by decide)⟩

/-! ## Claim C4 — `buildRequestConfig` -/

theorem foldl_eraseKey_eq_filter (ks : List String) :
    ∀ l : List (String × Json),
    ks.foldl eraseKey l = l.filter (fun kv => !(ks.contains kv.1)) := by
  induction ks with
  | nil =>
    intro l
    simp [List.foldl_nil]
  | cons k rest ih =>
    intro l
    rw [List.foldl_cons]
    rw [ih (eraseKey l k)]
    unfold eraseKey
    rw [List.filter_filter]
    congr 1
    funext kv
    by_cases hk : kv.1 = k
    · simp [hk]
    · simp [hk, Ne.symm hk]

theorem paramStep_nodup (st : ExtractState) (p : Json) (st2 : ExtractState)
    (h : paramStep st p = .ok st2)
    (h1 : nodupKeys st.pathParams) (h2 : nodupKeys st.queryParams)
    (h3 : nodupKeys st.headerParams) (h4 : nodupKeys st.cookieParams) :
    nodupKeys st2.pathParams ∧ nodupKeys st2.queryParams ∧
    nodupKeys st2.headerParams ∧ nodupKeys st2.cookieParams := by
  by_cases hn : p.isNullish = true
  · simp [paramStep, hn] at h
  · by_cases hname : (p.get "name").truthy = true
    · by_cases hpa : (p.get "in").strEq "path" = true
      · simp [paramStep, hn, hname, hpa] at h
        subst h
        exact ⟨nodupKeys_objSetList _ _ _ h1, h2, h3, h4⟩
      · by_cases hq : (p.get "in").strEq "query" = true
        · simp [paramStep, hn, hname, hpa, hq] at h
          subst h
          exact ⟨h1, nodupKeys_objSetList _ _ _ h2, h3, h4⟩
        · by_cases hh : (p.get "in").strEq "header" = true
          · simp [paramStep, hn, hname, hpa, hq, hh] at h
            subst h
            exact ⟨h1, h2, nodupKeys_objSetList _ _ _ h3, h4⟩
          · by_cases hc : (p.get "in").strEq "cookie" = true
            · simp [paramStep, hn, hname, hpa, hq, hh, hc] at h
              subst h
              exact ⟨h1, h2, h3, nodupKeys_objSetList _ _ _ h4⟩
            · simp [paramStep, hn, hname, hpa, hq, hh, hc] at h
              subst h
              exact ⟨h1, h2, h3, h4⟩
    · simp [paramStep, hn, hname] at h
      subst h
      exact ⟨h1, h2, h3, h4⟩

theorem foldlM_paramStep_nodup :
    ∀ (l : List Json) (st : ExtractState) (st2 : ExtractState),
    l.foldlM paramStep st = .ok st2 →
    nodupKeys st.pathParams → nodupKeys st.queryParams →
    nodupKeys st.headerParams → nodupKeys st.cookieParams →
    nodupKeys st2.pathParams ∧ nodupKeys st2.queryParams ∧
    nodupKeys st2.headerParams ∧ nodupKeys st2.cookieParams := by
  intro l
  induction l with
  | nil =>
    intro st st2 h h1 h2 h3 h4
    simp only [List.foldlM] at h
    have he := Except.ok.inj h
    subst he
    exact ⟨h1, h2, h3, h4⟩
  | cons a rest ih =>
    intro st st2 h h1 h2 h3 h4
    simp only [List.foldlM] at h
    cases ha : paramStep st a with
    | error e => rw [ha] at h; cases h
    | ok stMid =>
      rw [ha, except_bind_ok] at h
      obtain ⟨g1, g2, g3, g4⟩ := paramStep_nodup st a stMid ha h1 h2 h3 h4
      exact ih stMid st2 h g1 g2 g3 g4

theorem extractParameters_nodup (op : Json) (er : ExtractResult)
    (h : extractParameters op = .ok er) :
    nodupKeys er.st.pathParams ∧ nodupKeys er.st.queryParams ∧
    nodupKeys er.st.headerParams ∧ nodupKeys er.st.cookieParams := by
  unfold extractParameters at h
  split at h
  · cases h
  · cases hm : (match op.get "parameters" with
        | .arr l => l.foldlM paramStep ExtractState.init
        | _ => .ok ExtractState.init) with
    | error e =>
      rw [hm] at h
      simp only [Except.map] at h
      cases h
    | ok stF =>
      rw [hm] at h
      simp only [Except.map] at h
      have her := Except.ok.inj h
      have hst : er.st = stF := by rw [← her, extractBody_st]
      rw [hst]
      cases hp : op.get "parameters" <;> rw [hp] at hm <;>
        first
          | exact foldlM_paramStep_nodup _ _ _ hm (by decide) (by decide) (by decide) (by decide)
          | (have hi := Except.ok.inj hm
             rw [← hi]
             exact ⟨by decide, by decide, by decide, by decide⟩)

theorem foldlM_queryBuild_eq (input : Json) :
    ∀ (l acc res : List (String × Json)),
    nodupKeys l → (∀ x ∈ keysOf l, x ∉ keysOf acc) →
    l.foldlM (fun (acc : List (String × Json)) kv => do
        let v ← getChecked input kv.1
        if ¬ v.isUndef then pure (objSetList acc kv.1 v) else pure acc) acc = .ok res →
    res = acc ++ (l.filter (fun kv => ¬ (input.get kv.1).isUndef)).map
      (fun kv => (kv.1, input.get kv.1)) := by
  intro l
  induction l with
  | nil =>
    intro acc res _ _ h
    simp only [List.foldlM] at h
    have := Except.ok.inj h
    simp [← this]
  | cons kv rest ih =>
    intro acc res hnd hdisj h
    unfold nodupKeys at hnd
    rw [keysOf_cons, List.nodup_cons] at hnd
    rw [keysOf_cons] at hdisj
    simp only [List.foldlM] at h
    by_cases hnl : input.isNullish = true
    · have hgc : getChecked input kv.1 = .error .typeErr := by simp [getChecked, hnl]
      rw [hgc, except_bind_error, except_bind_error] at h
      cases h
    · have hgc : getChecked input kv.1 = .ok (input.get kv.1) := by simp [getChecked, hnl]
      simp only [hgc, except_bind_ok] at h
      by_cases hu : (input.get kv.1).isUndef = true
      · rw [if_neg (not_not_intro hu), except_pure_bind] at h
        have hres := ih acc res hnd.2 (fun x hx => hdisj x (List.mem_cons_of_mem _ hx)) h
        rw [hres, List.filter_cons_of_neg (by simpa using hu)]
      · rw [if_pos hu, except_pure_bind] at h
        have hstep : objSetList acc kv.1 (input.get kv.1) = acc ++ [(kv.1, input.get kv.1)] :=
          keysOf_objSetList_not_mem acc kv.1 _ (hdisj kv.1 (List.mem_cons_self _ _))
        rw [hstep] at h
        have hdisj2 : ∀ x ∈ keysOf rest, x ∉ keysOf (acc ++ [(kv.1, input.get kv.1)]) := by
          intro x hx
          rw [keysOf_append]
          intro hmem
          rcases List.mem_append.mp hmem with hm | hm
          · exact hdisj x (List.mem_cons_of_mem _ hx) hm
          · have hx1 : x = kv.1 := by simpa [keysOf] using hm
            subst hx1
            exact hnd.1 hx
        have hres := ih (acc ++ [(kv.1, input.get kv.1)]) res hnd.2 hdisj2 h
        rw [hres, List.filter_cons_of_pos (by simpa using hu)]
        simp

theorem ite_pure_ok {ε α : Type} {c1 c2 : Prop} [Decidable c1] [Decidable c2]
    {x y z md : α}
    (h : (if c1 then (pure x : Except ε α) else if c2 then pure y else pure z) = .ok md) :
    md = if c1 then x else if c2 then y else z := by
  by_cases h1 : c1
  · rw [if_pos h1] at h ⊢
    exact (Except.ok.inj h).symm
  · rw [if_neg h1] at h ⊢
    by_cases h2 : c2
    · rw [if_pos h2] at h ⊢
      exact (Except.ok.inj h).symm
    · rw [if_neg h2] at h ⊢
      exact (Except.ok.inj h).symm

theorem buildRequestConfig_char (input op : Json) (method route baseUrl : String)
    (er : ExtractResult) (c : RequestConfig)
    (hext : extractParameters op = .ok er)
    (hbc : buildRequestConfig input op method route baseUrl = .ok c) :
    ((["post", "put", "patch"] : List String).contains (jsToLower method) = true →
      c.data = specMutatingData input er.st) ∧
    ((["post", "put", "patch"] : List String).contains (jsToLower method) = false →
      c.data = none ∧
      c.params = (if ¬ (specDeclaredQuery input er.st).isEmpty then
        some (specDeclaredQuery input er.st) else none)) := by
  unfold buildRequestConfig at hbc
  rw [hext, except_bind_ok] at hbc
  obtain ⟨url, hurl, hbc⟩ := except_bind_ok_inv hbc
  obtain ⟨qps, hqps, hbc⟩ := except_bind_ok_inv hbc
  obtain ⟨hdrs, hhdrs, hbc⟩ := except_bind_ok_inv hbc
  have hc : c = _ := (Except.ok.inj hbc).symm
  constructor
  · intro mh
    rw [hc]
    simp only []
    rw [if_pos mh]
    rw [foldl_eraseKey_eq_filter]
    unfold specMutatingData specRemainingBody
    rfl
  · intro mh
    have hmneg : ¬ ((["post", "put", "patch"] : List String).contains (jsToLower method)
        = true) := by
      rw [mh]
      exact Bool.false_ne_true
    have hnodup := (extractParameters_nodup op er hext).2.1
    have hq := foldlM_queryBuild_eq input er.st.queryParams [] qps hnodup
      (fun x _ => by simp [keysOf]) hqps
    rw [List.nil_append] at hq
    constructor
    · rw [hc]
      simp only []
      rw [if_neg hmneg]
    · rw [hc]
      simp only []
      unfold specDeclaredQuery
      rw [hq]

/-- C4 counterexample: for a non-mutating method, a remaining input
field that is not a declared query parameter is dropped, not passed as
a query parameter — the claim predicts `params = {foo: "bar"}`, but the
built configuration has no query parameters at all. -/
theorem claim_C4_counterexample :
    buildRequestConfig (.obj [("foo", .str "bar")]) (.obj []) "get" "/x" "https://h" =
      .ok { method := "get", url := "https://h/x",
            headers := [("Content-Type", .str "application/json")],
            params := none, timeout := 30000, data := none } := by
  decide

/-- C4 (amended): `buildRequestConfig` substitutes declared path
parameters URL-encoded and, for mutating methods (post/put/patch),
sends as body the input fields left after removing every declared
path/query/header name, with a `_body` field becoming the whole body
verbatim; for non-mutating methods no body is sent and the query
parameters are exactly the declared query parameters present in the
input — remaining undeclared fields are dropped, not passed as query
parameters.  The two concrete examples of the claim hold as stated. -/
theorem claim_C4_amended :
    (buildRequestConfig (.obj [("petId", .num 42)]) opPetById "get"
        "/pet/\x7bpetId\x7d" "https://api" =
      .ok { method := "get", url := "https://api/pet/42",
            headers := [("Content-Type", .str "application/json")],
            params := none, timeout := 30000, data := none }) ∧
    (buildRequestConfig (.obj [("id", .num 7), ("name", .str "Rex")]) opPostPet "post"
        "/pet/\x7bid\x7d" "https://api" =
      .ok { method := "post", url := "https://api/pet/7",
            headers := [("Content-Type", .str "application/json")],
            params := none, timeout := 30000,
            data := some (.obj [("name", .str "Rex")]) }) ∧
    (∀ (input op : Json) (method route baseUrl : String) (er : ExtractResult)
        (c : RequestConfig),
      extractParameters op = .ok er →
      buildRequestConfig input op method route baseUrl = .ok c →
      ((["post", "put", "patch"] : List String).contains (jsToLower method) = true →
        c.data = specMutatingData input er.st) ∧
      ((["post", "put", "patch"] : List String).contains (jsToLower method) = false →
        c.data = none ∧
        c.params = (if ¬ (specDeclaredQuery input er.st).isEmpty then
          some (specDeclaredQuery input er.st) else none))) :=
  ⟨by
    simp [buildRequestConfig, extractParameters, extractBody, paramStep, ExtractState.init,
      Json.get, objGetList, Json.truthy, Json.isNullish, Json.isBoolTrue, Json.isUndef,
      Json.strEq, jsToString, spreadInto, objSetList, Json.setProp, opPetById, opPostPet,
      Json.canonicalIndex, Json.entries, Except.map, getChecked, List.foldlM, bind,
      Except.bind, pure, Except.pure, replaceFirst, replaceFirstAux, encodeURIComponent,
      uriUnescaped, hexDigitChar, utf8Bytes, jsSpread, eraseKey, keysOf, jsToLower, strMap]
    decide,
   by
    simp [buildRequestConfig, extractParameters, extractBody, paramStep, ExtractState.init,
      Json.get, objGetList, Json.truthy, Json.isNullish, Json.isBoolTrue, Json.isUndef,
      Json.strEq, jsToString, spreadInto, objSetList, Json.setProp, opPetById, opPostPet,
      Json.canonicalIndex, Json.entries, Except.map, getChecked, List.foldlM, bind,
      Except.bind, pure, Except.pure, replaceFirst, replaceFirstAux, encodeURIComponent,
      uriUnescaped, hexDigitChar, utf8Bytes, jsSpread, eraseKey, keysOf, jsToLower, strMap]
    decide,
   fun input op method route baseUrl er c hext hbc =>
     buildRequestConfig_char input op method route baseUrl er c hext hbc⟩

/-- Witness for C4 (amended): the POST example satisfies both
hypotheses, and the mutating-method body formula evaluates there to
exactly `\x7bname: "Rex"\x7d`. -/
theorem claim_C4_amended_witness :
    extractParameters opPostPet = .ok erPost ∧
    buildRequestConfig (.obj [("id", .num 7), ("name", .str "Rex")]) opPostPet "post"
      "/pet/\x7bid\x7d" "https://api" = .ok cPost ∧
    cPost.data = specMutatingData (.obj [("id", .num 7), ("name", .str "Rex")]) erPost.st :=
  ⟨by
    simp [extractParameters, extractBody, paramStep, ExtractState.init, Json.get,
      objGetList, Json.truthy, Json.isNullish, Json.isBoolTrue, Json.isUndef, Json.strEq,
      jsToString, spreadInto, objSetList, Json.setProp, opPostPet, erPost,
      Json.canonicalIndex, Json.entries, Except.map],
   by
    simp [buildRequestConfig, extractParameters, extractBody, paramStep, ExtractState.init,
      Json.get, objGetList, Json.truthy, Json.isNullish, Json.isBoolTrue, Json.isUndef,
      Json.strEq, jsToString, spreadInto, objSetList, Json.setProp, opPetById, opPostPet,
      Json.canonicalIndex, Json.entries, Except.map, getChecked, List.foldlM, bind,
      Except.bind, pure, Except.pure, replaceFirst, replaceFirstAux, encodeURIComponent,
      uriUnescaped, hexDigitChar, utf8Bytes, jsSpread, eraseKey, keysOf, jsToLower, strMap]
    decide,
   (claim_C4_amended.2.2 (.obj [("id", .num 7), ("name", .str "Rex")]) opPostPet "post"
     "/pet/\x7bid\x7d" "https://api" erPost cPost
     (by
      simp [extractParameters, extractBody, paramStep, ExtractState.init, Json.get,
        objGetList, Json.truthy, Json.isNullish, Json.isBoolTrue, Json.isUndef, Json.strEq,
        jsToString, spreadInto, objSetList, Json.setProp, opPostPet, erPost,
        Json.canonicalIndex, Json.entries, Except.map])
     (by
      simp [buildRequestConfig, extractParameters, extractBody, paramStep, ExtractState.init,
        Json.get, objGetList, Json.truthy, Json.isNullish, Json.isBoolTrue, Json.isUndef,
        Json.strEq, jsToString, spreadInto, objSetList, Json.setProp, opPetById, opPostPet,
        Json.canonicalIndex, Json.entries, Except.map, getChecked, List.foldlM, bind,
        Except.bind, pure, Except.pure, replaceFirst, replaceFirstAux, encodeURIComponent,
        uriUnescaped, hexDigitChar, utf8Bytes, jsSpread, eraseKey, keysOf, jsToLower, strMap]
      decide)).1 (by decide)⟩

/-! ## Claim C1 — manifest tool names -/

set_option maxHeartbeats 4000000

/-- C1: the uniqueness invariant fails.  In `swaggerDupNames` three
distinct method keys of `/a` (`get`, `GET`, `Get` — JS object keys are
case sensitive) normalise to the tool name `GET /a`, and the two later
operations share `operationId` `x`.  The duplicate handler renames the
second registration to `GET /a (x)`, but the third collides with that
renamed entry: the appended name is never re-checked against the
registered set, so the manifest's tool list carries `GET /a (x)` twice
and its name list is not duplicate-free. -/
theorem claim_C1_duplicate_in_manifest :
    (createMCPFromSwagger swaggerDupNames false 4000 (fun _ => false) 3).map
      (fun o => o.result) = .ok (.server ["GET /a", "GET /a (x)", "GET /a (x)"]) ∧
    ¬ (["GET /a", "GET /a (x)", "GET /a (x)"] : List String).Nodup := by
  constructor
  · simp [createMCPFromSwagger, opEntries, stepOp, failEntry, writeBackOp, mergeInputSchema,
      buildInputSchema, extractParameters, extractBody, paramStep, ExtractState.init,
      extractOutputSchema, extractErrorSchemas, buildToolDescription, findSuccessCode,
      resolveSchemaRefs, resolvePropsStage, resolveItemsStage, resolveListStage,
      walkTarget, walkSegsAux, refSegs, objFromEntries, objGetList,
      getBaseUrl, validatePort, sanitizeToolName, httpVerbs, underscoreRoute,
      Json.get, Json.truthy, Json.isNullish, Json.isBoolTrue, Json.isUndef, Json.strEq,
      Json.setProp, Json.entries, Json.canonicalIndex, Json.isObjLike, Json.isArr,
      jsToString, jsToLower, jsToUpper, jsTrim, jsIsControl, jsIsSpace, strMap,
      strSplitOnChar, splitOnCharAux, strStartsWith, strEndsWith, strDrop, strDropRight,
      spreadInto, objSetList, jsSpread, eraseKey, keysOf, jsJoin, jsDedup, jsDedupAux,
      jsStrictEq, Json.lengthPos, Json.elems, swaggerDupNames, Except.map, List.foldlM, bind,
      Except.bind, pure, Except.pure, toString, instToStringNat, Nat.repr, Nat.toDigits,
      Nat.toDigitsCore, Nat.digitChar, List.asString, List.mapM, List.mapM.loop]
  · decide

set_option maxHeartbeats 200000

/-! ## Claim C5 — graceful degradation and the zero-tools failure -/

theorem stepOp_nonverb (extFail : Json → Bool) (fuel : Nat) (st : CompileSt)
    (rm : String × String) (hv : httpVerbs.contains (jsToLower rm.2) = false) :
    stepOp extFail fuel st rm = st := by
  have h : ¬ (httpVerbs.contains (jsToLower rm.2) = true) := by
    rw [hv]
    exact Bool.false_ne_true
  unfold stepOp
  rw [if_pos h]

theorem stepOp_verb (extFail : Json → Bool) (fuel : Nat) (st : CompileSt)
    (rm : String × String) (hv : httpVerbs.contains (jsToLower rm.2) = true) :
    ∃ b : Bool, (stepOp extFail fuel st rm).okLog = st.okLog ++ [b] ∧
      (stepOp extFail fuel st rm).toolCount = st.toolCount + (if b then 1 else 0) ∧
      (stepOp extFail fuel st rm).manifestNames.length =
        st.manifestNames.length + (if b then 1 else 0) := by
  have h : ¬ ¬ (httpVerbs.contains (jsToLower rm.2) = true) := not_not_intro hv
  unfold stepOp
  rw [if_neg h]
  simp only []
  split
  · exact ⟨false, by simp [failEntry]⟩
  · split
    · exact ⟨false, by simp [failEntry]⟩
    · split
      · exact ⟨false, by simp [failEntry]⟩
      · split
        · exact ⟨false, by simp [failEntry]⟩
        · split
          · exact ⟨false, by simp [failEntry]⟩
          · split
            · exact ⟨false, by simp [failEntry]⟩
            · split
              · exact ⟨false, by simp [failEntry]⟩
              · split
                · exact ⟨false, by simp [failEntry]⟩
                · split
                  · exact ⟨false, by simp [failEntry]⟩
                  · exact ⟨true, by simp⟩

theorem foldl_stepOp_invariant (extFail : Json → Bool) (fuel : Nat) :
    ∀ (l : List (String × String)) (st : CompileSt),
    st.toolCount = st.okLog.count true →
    st.manifestNames.length = st.toolCount →
    (l.foldl (stepOp extFail fuel) st).okLog.length =
      st.okLog.length + l.countP (fun rm => httpVerbs.contains (jsToLower rm.2)) ∧
    (l.foldl (stepOp extFail fuel) st).toolCount =
      (l.foldl (stepOp extFail fuel) st).okLog.count true ∧
    (l.foldl (stepOp extFail fuel) st).manifestNames.length =
      (l.foldl (stepOp extFail fuel) st).toolCount := by
  intro l
  induction l with
  | nil =>
    intro st h1 h2
    exact ⟨by simp, h1, h2⟩
  | cons rm rest ih =>
    intro st h1 h2
    rw [List.foldl_cons]
    by_cases hv : httpVerbs.contains (jsToLower rm.2) = true
    · obtain ⟨b, hb1, hb2, hb3⟩ := stepOp_verb extFail fuel st rm hv
      have h1h : (stepOp extFail fuel st rm).toolCount =
          (stepOp extFail fuel st rm).okLog.count true := by
        rw [hb2, hb1, List.count_append, h1]
        cases b <;> simp
      have h2h : (stepOp extFail fuel st rm).manifestNames.length =
          (stepOp extFail fuel st rm).toolCount := by
        rw [hb3, hb2, h2]
      obtain ⟨g1, g2, g3⟩ := ih (stepOp extFail fuel st rm) h1h h2h
      refine ⟨?_, g2, g3⟩
      rw [g1, hb1, List.length_append, List.countP_cons_of_pos _ _ (by simpa using hv)]
      simp [Nat.add_comm, Nat.add_assoc, Nat.add_left_comm]
    · rw [stepOp_nonverb extFail fuel st rm (Bool.not_eq_true _ ▸ hv)]
      obtain ⟨g1, g2, g3⟩ := ih st h1 h2
      refine ⟨?_, g2, g3⟩
      rw [g1, List.countP_cons_of_neg]
      simpa using hv

/-- C5: once a run reaches the registration loop (the swagger document
is an object, the port validates and a truthy base URL is found), every
recognised verb entry contributes exactly one success-or-failure entry
to the log — a failed registration is caught and the loop continues —
the tool count equals the number of successes, and if no operation
registers successfully the run fails with the no-tools error instead of
silently producing an empty server. -/
theorem claim_C5_no_tools_error :
    ∀ (swagger : Json) (port vp : Int) (base : Json) (extFail : Json → Bool) (fuel : Nat),
    swagger.isNullish = false →
    validatePort port = .ok vp →
    getBaseUrl swagger = .ok base →
    base.truthy = true →
    (((opEntries swagger).foldl (stepOp extFail fuel) ⟨swagger, [], [], 0, []⟩).okLog.length =
      (opEntries swagger).countP (fun rm => httpVerbs.contains (jsToLower rm.2))) ∧
    (((opEntries swagger).foldl (stepOp extFail fuel) ⟨swagger, [], [], 0, []⟩).toolCount =
      ((opEntries swagger).foldl (stepOp extFail fuel)
        ⟨swagger, [], [], 0, []⟩).okLog.count true) ∧
    (((opEntries swagger).foldl (stepOp extFail fuel)
        ⟨swagger, [], [], 0, []⟩).okLog.count true = 0 →
      createMCPFromSwagger swagger false port extFail fuel =
        .error "No tools were registered. Cannot start MCP server.") := by
  intro swagger port vp base extFail fuel hnn hport hbase htr
  obtain ⟨g1, g2, g3⟩ := foldl_stepOp_invariant extFail fuel (opEntries swagger)
    ⟨swagger, [], [], 0, []⟩ rfl rfl
  refine ⟨by simpa using g1, g2, ?_⟩
  intro hzero
  have htc : ((opEntries swagger).foldl (stepOp extFail fuel)
      ⟨swagger, [], [], 0, []⟩).toolCount = 0 := by rw [g2, hzero]
  unfold createMCPFromSwagger
  simp [hnn, hport, hbase, htr, htc]

theorem stepOp_alwaysFail (fuel : Nat) (st : CompileSt) (rm : String × String) :
    (stepOp (fun _ => true) fuel st rm).okLog = st.okLog ∨
    (stepOp (fun _ => true) fuel st rm).okLog = st.okLog ++ [false] := by
  by_cases hv : httpVerbs.contains (jsToLower rm.2) = true
  · right
    have h : ¬ ¬ (httpVerbs.contains (jsToLower rm.2) = true) := not_not_intro hv
    unfold stepOp
    rw [if_neg h]
    simp only []
    split
    · simp [failEntry]
    · split
      · simp [failEntry]
      · split
        · simp [failEntry]
        · split
          · simp [failEntry]
          · split
            · simp [failEntry]
            · split
              · simp [failEntry]
              · split
                · simp [failEntry]
                · split
                  · simp [failEntry]
                  · simp [failEntry]
  · left
    rw [stepOp_nonverb (fun _ => true) fuel st rm (Bool.not_eq_true _ ▸ hv)]

theorem foldl_stepOp_alwaysFail_count (fuel : Nat) :
    ∀ (l : List (String × String)) (st : CompileSt),
    (l.foldl (stepOp (fun _ => true) fuel) st).okLog.count true = st.okLog.count true := by
  intro l
  induction l with
  | nil => intro st; rfl
  | cons rm rest ih =>
    intro st
    rw [List.foldl_cons, ih]
    rcases stepOp_alwaysFail fuel st rm with h | h <;> simp [h]

/-- Witness for C5: with an `ajv.compile` oracle that always throws,
every registration of `swaggerDupNames` fails (`okLog` gains no `true`
entry) and the run ends in the no-tools error. -/
theorem claim_C5_witness :
    swaggerDupNames.isNullish = false ∧
    validatePort 4000 = .ok 4000 ∧
    getBaseUrl swaggerDupNames = .ok (.str "https://api.example.com") ∧
    (Json.str "https://api.example.com").truthy = true ∧
    createMCPFromSwagger swaggerDupNames false 4000 (fun _ => true) 3 =
      .error "No tools were registered. Cannot start MCP server." :=
  ⟨by decide, by decide, by decide, by decide,
   (claim_C5_no_tools_error swaggerDupNames 4000 4000 (.str "https://api.example.com")
     (fun _ => true) 3 (by decide) (by decide) (by decide) (by decide)).2.2
     (foldl_stepOp_alwaysFail_count 3 (opEntries swaggerDupNames)
       ⟨swaggerDupNames, [], [], 0, []⟩)⟩

/-! ## Claim C7 — idempotence of `resolveSchemaRefs` -/

/-- C7 counterexample: a schema with no `$ref` anywhere is still changed
by one resolution pass — a truthy non-object `properties` value is
rebuilt into an empty object (`Object.entries(5)` is `[]`), so "resolving
a schema that already contains no resolvable `$ref` pointers returns it
unchanged" fails; only schemas that are themselves resolution outputs
are fixed points. -/
theorem claim_C7_counterexample :
    (Json.obj [("properties", .num 5)]).get "$ref" = .undef ∧
    ((Json.obj [("properties", .num 5)]).get "properties").get "$ref" = .undef ∧
    resolveSchemaRefs specNoRefLoop 3 (.obj [("properties", .num 5)]) =
      .ok (.obj [("properties", .obj [])]) ∧
    Json.obj [("properties", .obj [])] ≠ Json.obj [("properties", .num 5)] := by
  refine ⟨by decide, by decide, by decide, by decide⟩

/-- C7 (amended): `resolveSchemaRefs` is idempotent on runtime values —
for every well-formed spec document and well-formed schema (no JS object
holds duplicate keys), a successful resolution yields a well-formed
result that resolves to itself at the same recursion budget:
`resolve(resolve(s)) = resolve(s)`.  A schema that merely contains no
resolvable `$ref` pointers need not be returned unchanged (see the
counterexample); the fixed points are the resolution outputs. -/
theorem claim_C7_resolve_idempotent :
    ∀ (spec : Json) (n : Nat) (s r : Json),
    Json.WFb spec = true → Json.WFb s = true →
    resolveSchemaRefs spec n s = .ok r →
    Json.WFb r = true ∧ resolveSchemaRefs spec n r = .ok r :=
  fun spec n s r hspec hs h => resolve_idem spec hspec n s r hs h

/-- Witness for C7: resolving `{$ref: "#/a"}` against `{a: {type:
"string"}}` gives `{type: "string"}`, which resolves to itself. -/
theorem claim_C7_witness :
    Json.WFb specNoRefLoop = true ∧
    Json.WFb (.obj [("$ref", .str "#/a")]) = true ∧
    resolveSchemaRefs specNoRefLoop 3 (.obj [("$ref", .str "#/a")]) =
      .ok (.obj [("type", .str "string")]) ∧
    Json.WFb (.obj [("type", .str "string")]) = true ∧
    resolveSchemaRefs specNoRefLoop 3 (.obj [("type", .str "string")]) =
      .ok (.obj [("type", .str "string")]) :=
  ⟨by simp [specNoRefLoop, WFb_obj, WFb_arr, Json.WFb, nodupKeys, keysOf],
   by simp [WFb_obj, WFb_arr, Json.WFb, nodupKeys, keysOf],
   by decide,
   (claim_C7_resolve_idempotent specNoRefLoop 3 (.obj [("$ref", .str "#/a")])
     (.obj [("type", .str "string")])
     (by simp [specNoRefLoop, WFb_obj, WFb_arr, Json.WFb, nodupKeys, keysOf])
     (by simp [WFb_obj, WFb_arr, Json.WFb, nodupKeys, keysOf])
     (by decide)).1,
   (claim_C7_resolve_idempotent specNoRefLoop 3 (.obj [("$ref", .str "#/a")])
     (.obj [("type", .str "string")])
     (by simp [specNoRefLoop, WFb_obj, WFb_arr, Json.WFb, nodupKeys, keysOf])
     (by simp [WFb_obj, WFb_arr, Json.WFb, nodupKeys, keysOf])
     (by decide)).2⟩

/-! ## Claim C8 — termination of `resolveSchemaRefs` -/

theorem resolve_cyc_diverges :
    ∀ n : Nat, resolveSchemaRefs cycSpec n cycSchema = .error .outOfFuel := by
  intro n
  induction n with
  | zero => rfl
  | succ n ih =>
    rw [resolve_succ]
    rw [if_neg (not_not_intro (show cycSchema.isObjLike = true from rfl))]
    rw [if_pos (show (cycSchema.get "$ref").truthy = true from rfl)]
    rw [show cycSchema.get "$ref" = Json.str "#/a" from rfl]
    simp only []
    rw [show walkTarget cycSpec "#/a" = some cycSchema from rfl]
    exact ih

/-- C8: `resolveSchemaRefs` terminates whenever following `$ref`
pointers never revisits a pointer — any rank function under which each
pointer's target only mentions strictly smaller pointers certifies
that; a fuel of `fuelBound` (linear in the schema's nesting height, the
spec's height and the pointer rank bound) is never exhausted.  And the
function has no cycle detection: on the self-referential `cycSpec`
(`#/a` points back at `{$ref: "#/a"}`), every recursion budget, however
large, is exhausted. -/
theorem claim_C8_termination :
    (∀ (spec : Json) (rank : String → Nat),
      (∀ p t q, walkTarget spec p = some t → q ∈ refsOf t → rank q < rank p) →
      ∀ (s : Json) (n : Nat),
      fuelBound (ht spec) (rankBound rank (refsOf s)) (ht s) ≤ n →
      resolveSchemaRefs spec n s ≠ .error .outOfFuel) ∧
    (∀ n : Nat, resolveSchemaRefs cycSpec n cycSchema = .error .outOfFuel) := by
  constructor
  · intro spec rank Hacyc s n hn
    exact resolve_no_oof spec rank Hacyc (rankBound rank (refsOf s)) (ht s) s n
      (fun q hq => rankBound_lt rank q (refsOf s) hq) (le_refl _) hn
  · intro n
    exact resolve_cyc_diverges n

/-- Witness for C8: the ref-free spec satisfies the acyclicity
hypothesis under the constant rank, so resolution of `{$ref: "#/a"}`
against it never runs out of fuel at the computed budget; and on the
cyclic spec the divergence instance holds at budget 5. -/
theorem claim_C8_witness :
    (resolveSchemaRefs specNoRefLoop
      (fuelBound (ht specNoRefLoop)
        (rankBound (fun _ => 0) (refsOf (.obj [("$ref", .str "#/a")])))
        (ht (.obj [("$ref", .str "#/a")])))
      (.obj [("$ref", .str "#/a")]) ≠ .error .outOfFuel) ∧
    resolveSchemaRefs cycSpec 5 cycSchema = .error .outOfFuel := by
  have hnorefs : ∀ q : String, q ∈ refsOf specNoRefLoop → False := by
    intro q hq
    have hq2 : q ∈ refsOf (Json.obj [("a", Json.obj [("type", Json.str "string")])]) := hq
    obtain ⟨kv, hm, hd⟩ := refsOf_obj_inv _ q hq2
    have hkv : kv = ("a", Json.obj [("type", Json.str "string")]) := by simpa using hm
    subst hkv
    rcases hd with ⟨hk, -⟩ | hq3
    · exact absurd hk (by decide)
    · obtain ⟨kv2, hm2, hd2⟩ := refsOf_obj_inv _ q hq3
      have hkv2 : kv2 = ("type", Json.str "string") := by simpa using hm2
      subst hkv2
      rcases hd2 with ⟨hk2, -⟩ | hq4
      · exact absurd hk2 (by decide)
      · rw [refsOf_atom (Json.str "string") rfl] at hq4
        simp at hq4
  constructor
  · exact claim_C8_termination.1 specNoRefLoop (fun _ => 0)
      (fun p t q hw hq =>
        (hnorefs q (refsOf_walkTarget specNoRefLoop p q t hw hq)).elim)
      (.obj [("$ref", .str "#/a")]) _ (le_refl _)
  · exact claim_C8_termination.2 5

/-! ## Claim C9 — operations are mutated by `extractParameters`

The data model asserts operations are never mutated after parse, but
`extractParameters` executes `parameters.body.required = true` on the
operation's own request-body schema object when
`operation.requestBody.required === true`, overwriting the schema's
`required` field (a JSON-Schema array of property names) with the
boolean `true` inside the operation itself. -/

/-- C9: at the failing input `opRequiredBody` (a JSON request body
marked required at the `requestBody` level), `extractParameters` hands
back an operation that differs from the one it was given — the body
schema's `required: ["name"]` has become `required: true` — so the
operation is not left structurally unchanged. -/
theorem claim_C9_operation_mutated :
    (extractParameters opRequiredBody).map ExtractResult.opAfter = .ok opRequiredBodyAfter ∧
    opRequiredBodyAfter ≠ opRequiredBody ∧
    (extractParameters opRequiredBodyNoFlag).map ExtractResult.opAfter =
      .ok opRequiredBodyNoFlag := by
  refine ⟨by decide, by decide, by decide⟩

/-! ## Claim C3 — `buildInputSchema` loses body required fields

Because of the mutation above, when `operation.requestBody.required ===
true` the body schema's `required` list has been replaced by `true`
before `buildInputSchema` merges the body, so its
`Array.isArray(parameters.body.required)` guard fails and the body's
required fields are dropped from the merged `required` list. -/

/-- C3: at the failing input `opRequiredBody`, the merged schema
flattens the body property `name` into the top-level properties and
sets `additionalProperties: false` as claimed, but its `required` list
is empty — `name` is not appended — whereas the same operation without
the `requestBody.required` flag does get `required: ["name"]`. -/
theorem claim_C3_body_required_dropped :
    buildInputSchema opRequiredBody = .ok (Json.obj
      [("type", .str "object"),
       ("properties", .obj [("name", .obj [("type", .str "string")])]),
       ("required", .arr []),
       ("additionalProperties", .bool false)]) ∧
    buildInputSchema opRequiredBodyNoFlag = .ok (Json.obj
      [("type", .str "object"),
       ("properties", .obj [("name", .obj [("type", .str "string")])]),
       ("required", .arr [.str "name"]),
       ("additionalProperties", .bool false)]) := by
  refine ⟨by decide, by decide⟩

end SwaggerToMcp
